import Mathlib

/-!
# Graphics-Assignments: rasterisation and clipping kernels

A shallow embedding of the three demo programs' kernels:

* `bresenhamPixels`, `drawSquareBrush`, `drawCircleBrush`
  (Bresenham's Line Drawing Algorithm/main.cpp),
* `liangBarskyClip` (Liang-Barsky Line Clipping Algorithm/main.cpp),
* `plotCirclePoints`, `drawCircleMidpoint` (Circle drawing algorithm.cpp).

C++ `int` is embedded as `Int` (no overflow), `float` as exact rationals `ℚ`.
A call of `setPixel` / `glVertex2i` is embedded as the emission of a point; a
procedure that plots is embedded as the list of the points it plots, in order.
Loops whose termination is not syntactically evident (`while`) take a fuel
argument and return `none` when the fuel runs out.
-/

namespace Graphics

/-! ## Data model -/

/-- Integer pixel, `struct Pt { int x, y; }`. -/
structure Pt where
  x : Int
  y : Int
  deriving DecidableEq, Repr

/-- The values `lo, lo+1, ..., hi` taken by the control variable of
`for (int v = lo; v <= hi; ++v)`; empty when `hi < lo`. -/
def intRange (lo hi : Int) : List Int :=
  (List.range (hi - lo + 1).toNat).map (fun (i : Nat) => lo + (i : Int))

/-! ## Bresenham stepper -/

/-- The `while(true)` loop of `bresenhamPixels`: state `x, y, err`, the vector
`outPixels` as accumulator. One unit of fuel per iteration. -/
def bresenhamLoop (x2 y2 dx dy sx sy : Int) :
    Nat → Int → Int → Int → List Pt → Option (List Pt)
  | 0, _, _, _, _ => none
  | fuel + 1, x, y, err, outPixels =>
    let outPixels := outPixels ++ [⟨x, y⟩]
    if x = x2 ∧ y = y2 then some outPixels
    else
      let e2 := 2 * err
      let errA := if e2 > -dy then err - dy else err
      let xA := if e2 > -dy then x + sx else x
      let errB := if e2 < dx then errA + dx else errA
      let yB := if e2 < dx then y + sy else y
      bresenhamLoop x2 y2 dx dy sx sy fuel xA yB errB outPixels

/-- The procedure `bresenhamPixels(x1,y1,x2,y2,outPixels)`: the final content
of `outPixels`, or `none` if the loop needs more than `fuel` iterations. -/
def bresenhamPixels (fuel : Nat) (x1 y1 x2 y2 : Int) : Option (List Pt) :=
  let dx := |x2 - x1|
  let dy := |y2 - y1|
  let sx : Int := if x1 < x2 then 1 else -1
  let sy : Int := if y1 < y2 then 1 else -1
  let err := dx - dy
  bresenhamLoop x2 y2 dx dy sx sy fuel x1 y1 err []

/-- Two pixels are 8-neighbours: they differ by at most one in each coordinate
and by exactly one in at least one of them. -/
def Step8 (p q : Pt) : Prop :=
  |q.x - p.x| ≤ 1 ∧ |q.y - p.y| ≤ 1 ∧ (|q.x - p.x| = 1 ∨ |q.y - p.y| = 1)

instance (p q : Pt) : Decidable (Step8 p q) := by
  unfold Step8; infer_instance

/-! ## Liang-Barsky clipper -/

/-- The clipping window, the globals `xmin, ymin, xmax, ymax`. -/
structure ClipRect where
  xmin : ℚ
  ymin : ℚ
  xmax : ℚ
  ymax : ℚ

/-- The source's `struct Line { float x1, y1, x2, y2; }`. -/
structure Line where
  x1 : ℚ
  y1 : ℚ
  x2 : ℚ
  y2 : ℚ
  deriving DecidableEq

/-- Body of the `for (i = 0; i < 4; i++)` loop of `liangBarskyClip` for the pair
`p[i], q[i]`, on the state `(tE, tL)`; `none` stands for `return false`. -/
def clipEdge (p q : ℚ) (t : ℚ × ℚ) : Option (ℚ × ℚ) :=
  if p = 0 then
    if q < 0 then none else some t
  else
    let r := q / p
    if p < 0 then some (max t.1 r, t.2) else some (t.1, min t.2 r)

/-- The four-edge loop of `liangBarskyClip` from `tE = 0, tL = 1`, followed by
the test `if (tE > tL) return false`: the final `(tE, tL)`, or `none` where the
function returns `false`. -/
def liangBarskyParams (w : ClipRect) (x1 y1 x2 y2 : ℚ) : Option (ℚ × ℚ) :=
  let dx := x2 - x1
  let dy := y2 - y1
  let p : List ℚ := [-dx, dx, -dy, dy]
  let q : List ℚ := [x1 - w.xmin, w.xmax - x1, y1 - w.ymin, w.ymax - y1]
  match (List.zip p q).foldlM (fun t pq => clipEdge pq.1 pq.2 t) ((0 : ℚ), (1 : ℚ)) with
  | none => none
  | some t => if t.1 > t.2 then none else some t

/-- The function `liangBarskyClip(x1,y1,x2,y2,cx1,cy1,cx2,cy2)`: `none` for
`false`, and `some ⟨cx1,cy1,cx2,cy2⟩` for `true` with these outputs. -/
def liangBarskyClip (w : ClipRect) (x1 y1 x2 y2 : ℚ) : Option Line :=
  (liangBarskyParams w x1 y1 x2 y2).map fun t =>
    ⟨x1 + t.1 * (x2 - x1), y1 + t.1 * (y2 - y1), x1 + t.2 * (x2 - x1), y1 + t.2 * (y2 - y1)⟩

/-- The point `(x, y)` lies in the closed clip rectangle. -/
def Inside (w : ClipRect) (x y : ℚ) : Prop :=
  w.xmin ≤ x ∧ x ≤ w.xmax ∧ w.ymin ≤ y ∧ y ≤ w.ymax

/-- The point `(x, y)` has a coordinate equal to one of the four bounds. -/
def OnEdge (w : ClipRect) (x y : ℚ) : Prop :=
  x = w.xmin ∨ x = w.xmax ∨ y = w.ymin ∨ y = w.ymax

/-! ## Brush stamper -/

/-- The procedure `drawSquareBrush(cx, cy, W)`: the pixels it sets, in order.
`W / 2` is C++ integer division, which truncates toward zero. -/
def drawSquareBrush (cx cy W : Int) : List Pt :=
  let half := Int.tdiv W 2
  (intRange (-half) half).flatMap fun dy =>
    (intRange (-half) half).map fun dx => ⟨cx + dx, cy + dy⟩

/-- The procedure `drawCircleBrush(cx, cy, r)`: the pixels it sets, in order.
`floor(sqrt(r*r - dy*dy))` is the exact integer square root; inside the loop
`-r ≤ dy ≤ r`, so its argument is never negative. -/
def drawCircleBrush (cx cy r : Int) : List Pt :=
  (intRange (-r) r).flatMap fun dy =>
    let hh : Int := (Nat.sqrt (r * r - dy * dy).toNat : Int)
    (intRange (-hh) hh).map fun dx => ⟨cx + dx, cy + dy⟩

/-! ## Midpoint circle stepper -/

/-- The procedure `plotCirclePoints(xc, yc, x, y)`: its eight vertices, in order. -/
def plotCirclePoints (xc yc x y : Int) : List Pt :=
  [⟨xc + x, yc + y⟩, ⟨xc - x, yc + y⟩, ⟨xc + x, yc - y⟩, ⟨xc - x, yc - y⟩,
   ⟨xc + y, yc + x⟩, ⟨xc - y, yc + x⟩, ⟨xc + y, yc - x⟩, ⟨xc - y, yc - x⟩]

/-- The `while (x <= y)` loop of `drawCircleMidpoint` on the state `x, y, d`:
the points plotted from this state on. One unit of fuel per test of the loop
condition. -/
def midpointLoop (xc yc : Int) : Nat → Int → Int → Int → Option (List Pt)
  | 0, _, _, _ => none
  | fuel + 1, x, y, d =>
    if x ≤ y then
      let dA := if d < 0 then d + (2 * x + 3) else d + (2 * (x - y) + 5)
      let yA := if d < 0 then y else y - 1
      (midpointLoop xc yc fuel (x + 1) yA dA).map
        (fun rest => plotCirclePoints xc yc x y ++ rest)
    else some []

/-- The `for (t ...)` loop of `drawCircleMidpoint` over the remaining values
`ts` of `t`: the points plotted in each pass, pass by pass. -/
def midpointPasses (xc yc radius : Int) (fuel : Nat) : List Nat → Option (List (List Pt))
  | [] => some []
  | t :: ts =>
    match midpointLoop xc yc fuel 0 (radius + t) (1 - (radius + t)),
      midpointPasses xc yc radius fuel ts with
    | some pass, some rest => some (pass :: rest)
    | _, _ => none

/-- The points plotted by `drawCircleMidpoint(xc, yc, radius, thickness)`,
grouped by pass `t = 0, ..., thickness - 1`. -/
def drawCircleMidpointPasses (fuel : Nat) (xc yc radius thickness : Int) :
    Option (List (List Pt)) :=
  midpointPasses xc yc radius fuel (List.range thickness.toNat)

/-- The procedure `drawCircleMidpoint(xc, yc, radius, thickness)`: all points it
plots, in order. -/
def drawCircleMidpoint (fuel : Nat) (xc yc radius thickness : Int) : Option (List Pt) :=
  (drawCircleMidpointPasses fuel xc yc radius thickness).map List.flatten

/-- Loop invariant of the midpoint stepper for the circle of radius `r`: the
decision variable is `d = x² + y² - r² + 2x - y + 1`, and a point about to be
plotted has `-y ≤ x² + y² - r² ≤ r`. -/
def MidpointInv (r x y d : Int) : Prop :=
  0 ≤ x ∧ y ≤ r ∧ d = x ^ 2 + y ^ 2 - r ^ 2 + 2 * x - y + 1 ∧
    (x ≤ y → -y ≤ x ^ 2 + y ^ 2 - r ^ 2 ∧ x ^ 2 + y ^ 2 - r ^ 2 ≤ r)

/-! ## Event handlers of the three demos

The handlers are embedded as functions on the record of the program's global
variables. The GLUT callbacks receive the button, the button state and the
special key as integers compared with header constants; they are embedded as
the enumerations below. A handler that can call `exit(0)` returns `none`
there. Console output and `glutPostRedisplay` leave the state unchanged. -/

/-- Mouse button passed to a GLUT mouse callback. -/
inductive MouseButton where
  | left
  | middle
  | right
  deriving DecidableEq

/-- Button state passed to a GLUT mouse callback (`GLUT_DOWN`, `GLUT_UP`). -/
inductive ButtonState where
  | down
  | up
  deriving DecidableEq

/-- Key passed to a GLUT special-key callback: the four arrow keys the
clipping demo switches on, or any other special key. -/
inductive SpecialKey where
  | up
  | down
  | left
  | right
  | other
  deriving DecidableEq

/-- Global variables of the line-drawing demo
(Bresenham's Line Drawing Algorithm/main.cpp). -/
structure LineDemo where
  winW : Int
  winH : Int
  p1 : Pt
  p2 : Pt
  p1set : Bool
  lineWidth : Int
  roundBrush : Bool
  drawnLines : List (Pt × Pt)
  drawnWidths : List Int
  drawnRoundFlags : List Int
  deriving DecidableEq

namespace LineDemo

/-- The initial values of the globals. -/
def init : LineDemo :=
  { winW := 800, winH := 600, p1 := ⟨-1, -1⟩, p2 := ⟨-1, -1⟩, p1set := false,
    lineWidth := 1, roundBrush := false,
    drawnLines := [], drawnWidths := [], drawnRoundFlags := [] }

/-- The handler `mouse(button, state, x, y)`. -/
def mouse (s : LineDemo) (button : MouseButton) (state : ButtonState) (x y : Int) :
    LineDemo :=
  if button = MouseButton.left ∧ state = ButtonState.down then
    let mx := x
    let my := s.winH - y
    if s.p1set = false then
      { s with p1 := ⟨mx, my⟩, p1set := true, p2 := ⟨-1, -1⟩ }
    else
      { s with
        drawnLines := s.drawnLines ++ [(s.p1, ⟨mx, my⟩)]
        drawnWidths := s.drawnWidths ++ [s.lineWidth]
        drawnRoundFlags := s.drawnRoundFlags ++ [if s.roundBrush then 1 else 0]
        p1set := false, p1 := ⟨-1, -1⟩, p2 := ⟨-1, -1⟩ }
  else s

/-- The handler `motion(x, y)`. -/
def motion (s : LineDemo) (x y : Int) : LineDemo :=
  if s.p1set then { s with p2 := ⟨x, s.winH - y⟩ } else s

/-- The handler `keyboard(key, x, y)`. -/
def keyboard (s : LineDemo) (key : Char) : LineDemo :=
  if key = '+' ∨ key = '=' then
    { s with lineWidth := min 100 (s.lineWidth + 1) }
  else if key = '-' then
    { s with lineWidth := max 1 (s.lineWidth - 1) }
  else if key = 'r' ∨ key = 'R' then
    { s with roundBrush := !s.roundBrush }
  else if key = 'c' ∨ key = 'C' then
    { s with
      drawnLines := [], drawnWidths := [], drawnRoundFlags := []
      p1set := false, p1 := ⟨-1, -1⟩, p2 := ⟨-1, -1⟩ }
  else s

/-- The handler `reshape(w, h)`. -/
def reshape (s : LineDemo) (w h : Int) : LineDemo :=
  { s with winW := w, winH := h }

/-- An input event of the line-drawing demo. -/
inductive Event where
  | mouse (button : MouseButton) (state : ButtonState) (x y : Int)
  | motion (x y : Int)
  | keyboard (key : Char)
  | reshape (w h : Int)
  deriving DecidableEq

/-- Dispatch of one event to its handler. -/
def step (s : LineDemo) : Event → LineDemo
  | Event.mouse button state x y => s.mouse button state x y
  | Event.motion x y => s.motion x y
  | Event.keyboard key => s.keyboard key
  | Event.reshape w h => s.reshape w h

/-- The state after a finite sequence of events. -/
def run (s : LineDemo) (evs : List Event) : LineDemo :=
  evs.foldl step s

end LineDemo

/-- Global variables of the clipping demo
(Liang-Barsky Line Clipping Algorithm/main.cpp): the clip window
`xmin, ymin, xmax, ymax`, the stored lines and the pending first click.
The `float` globals are exact rationals here: what is proved about the window
is proved over exact arithmetic. Single-precision addition of `10` is exact on
integers of absolute value up to `2^24`; beyond that it rounds, and the exact
model no longer describes the program. -/
structure ClipDemo where
  win : ClipRect
  lines : List Line
  firstClick : Bool
  xStart : ℚ
  yStart : ℚ

/-- The clip window has positive width and height. -/
def ClipRect.Valid (w : ClipRect) : Prop :=
  w.xmin < w.xmax ∧ w.ymin < w.ymax

/-- The four bounds of the clip window are integers of absolute value at most
`M`. -/
def ClipRect.IntWithin (w : ClipRect) (M : Int) : Prop :=
  ∃ a b c d : Int, w = ⟨(a : ℚ), (b : ℚ), (c : ℚ), (d : ℚ)⟩ ∧
    (-M ≤ a ∧ a ≤ M) ∧ (-M ≤ b ∧ b ≤ M) ∧ (-M ≤ c ∧ c ≤ M) ∧ (-M ≤ d ∧ d ≤ M)

namespace ClipDemo

/-- The global `winMoveStep`. -/
def winMoveStep : ℚ := 10

/-- The global `winResizeStep`. -/
def winResizeStep : ℚ := 10

/-- The initial values of the globals (`xStart`, `yStart` are zero-initialised). -/
def init : ClipDemo :=
  { win := ⟨200, 150, 600, 450⟩, lines := [], firstClick := true, xStart := 0, yStart := 0 }

/-- The handler `mouse(button, state, x, y)`. -/
def mouse (s : ClipDemo) (button : MouseButton) (state : ButtonState) (x y : Int) :
    ClipDemo :=
  if button = MouseButton.left ∧ state = ButtonState.down then
    let y := 600 - y
    if s.firstClick then
      { s with xStart := (x : ℚ), yStart := (y : ℚ), firstClick := false }
    else
      { s with lines := s.lines ++ [⟨s.xStart, s.yStart, (x : ℚ), (y : ℚ)⟩], firstClick := true }
  else s

/-- The handler `keyboard(key, x, y)`; `none` where it calls `exit(0)`. The
float updates `+= winResizeStep`, `-= winResizeStep` are exact additions. -/
def keyboard (s : ClipDemo) (key : Char) : Option ClipDemo :=
  if key = 'c' ∨ key = 'C' then
    some { s with lines := [] }
  else if key = 'r' ∨ key = 'R' then
    some { s with win := ⟨200, 150, 600, 450⟩ }
  else if key = '[' then
    some { s with win := ⟨s.win.xmin + winResizeStep, s.win.ymin + winResizeStep,
                          s.win.xmax - winResizeStep, s.win.ymax - winResizeStep⟩ }
  else if key = ']' then
    some { s with win := ⟨s.win.xmin - winResizeStep, s.win.ymin - winResizeStep,
                          s.win.xmax + winResizeStep, s.win.ymax + winResizeStep⟩ }
  else if key = Char.ofNat 27 then
    none
  else some s

/-- The handler `specialKeys(key, x, y)`. The float updates `+= winMoveStep`,
`-= winMoveStep` are exact additions. -/
def specialKeys (s : ClipDemo) (key : SpecialKey) : ClipDemo :=
  match key with
  | SpecialKey.up =>
    { s with win := ⟨s.win.xmin, s.win.ymin + winMoveStep, s.win.xmax, s.win.ymax + winMoveStep⟩ }
  | SpecialKey.down =>
    { s with win := ⟨s.win.xmin, s.win.ymin - winMoveStep, s.win.xmax, s.win.ymax - winMoveStep⟩ }
  | SpecialKey.left =>
    { s with win := ⟨s.win.xmin - winMoveStep, s.win.ymin, s.win.xmax - winMoveStep, s.win.ymax⟩ }
  | SpecialKey.right =>
    { s with win := ⟨s.win.xmin + winMoveStep, s.win.ymin, s.win.xmax + winMoveStep, s.win.ymax⟩ }
  | SpecialKey.other => s

/-- An input event of the clipping demo. -/
inductive Event where
  | mouse (button : MouseButton) (state : ButtonState) (x y : Int)
  | keyboard (key : Char)
  | specialKeys (key : SpecialKey)
  deriving DecidableEq

/-- Dispatch of one event to its handler; `none` where the process exits. -/
def step (s : ClipDemo) : Event → Option ClipDemo
  | Event.mouse button state x y => some (s.mouse button state x y)
  | Event.keyboard key => s.keyboard key
  | Event.specialKeys key => some (s.specialKeys key)

/-- The state after a finite sequence of events; the events after an `exit(0)`
are not processed. -/
def run (s : ClipDemo) : List Event → ClipDemo
  | [] => s
  | e :: es =>
    match s.step e with
    | none => s
    | some s1 => run s1 es

end ClipDemo

/-- Global variables of the circle demo (Circle drawing algorithm.cpp). -/
structure CircleDemo where
  winW : Int
  winH : Int
  numCircles : Int
  startRadius : Int
  gap : Int
  gradientMode : Int
  deriving DecidableEq

namespace CircleDemo

/-- The initial values of the globals. -/
def init : CircleDemo :=
  { winW := 800, winH := 600, numCircles := 20, startRadius := 30, gap := 10,
    gradientMode := 0 }

/-- The handler `keyboard(key, x, y)`; `none` where it calls `exit(0)`.
`%` is the C++ remainder, which truncates toward zero. -/
def keyboard (s : CircleDemo) (key : Char) : Option CircleDemo :=
  if key = '+' ∨ key = '=' then
    some { s with numCircles := min 100 (s.numCircles + 1) }
  else if key = '-' then
    some { s with numCircles := max 1 (s.numCircles - 1) }
  else if key = 'c' ∨ key = 'C' then
    some { s with gradientMode := Int.tmod (s.gradientMode + 1) 3 }
  else if key = 'r' ∨ key = 'R' then
    some { s with numCircles := 20, gradientMode := 0, startRadius := 30, gap := 10 }
  else if key = Char.ofNat 27 then
    none
  else some s

/-- The handler `reshape(w, h)`. -/
def reshape (s : CircleDemo) (w h : Int) : CircleDemo :=
  { s with winW := w, winH := h }

/-- An input event of the circle demo. -/
inductive Event where
  | keyboard (key : Char)
  | reshape (w h : Int)
  deriving DecidableEq

/-- Dispatch of one event to its handler; `none` where the process exits. -/
def step (s : CircleDemo) : Event → Option CircleDemo
  | Event.keyboard key => s.keyboard key
  | Event.reshape w h => some (s.reshape w h)

/-- The state after a finite sequence of events; the events after an `exit(0)`
are not processed. -/
def run (s : CircleDemo) : List Event → CircleDemo
  | [] => s
  | e :: es =>
    match s.step e with
    | none => s
    | some s1 => run s1 es

end CircleDemo

/-- The procedure `setGradientColor(i, numCircles)` under the global
`gradientMode`: the three arguments of its `glColor3f` call, in exact
arithmetic (`1.2f` is `6/5`, and so on); `none` where no case of the `switch`
applies and no colour is set. -/
def setGradientColor (gradientMode i numCircles : Int) : Option (ℚ × ℚ × ℚ) :=
  let t : ℚ := (i : ℚ) / (numCircles : ℚ)
  if gradientMode = 0 then
    let r := t
    let g := 1 - |1 / 2 - r| * 2
    let b := 1 - r
    some (r, g, b)
  else if gradientMode = 1 then
    let r := t * (6 / 5)
    let g := t
    let b := 1 - t
    some (r, g, b)
  else if gradientMode = 2 then
    let r := 3 / 5 + t * (2 / 5)
    let g := t * (1 / 2) + 3 / 10
    let b := 4 / 5 + t * (1 / 5)
    some (r, g, b)
  else none

/-! # Theorems -/

/-! ## Bresenham stepper: loop lemmas -/

theorem bresenhamLoop_acc (x2 y2 dx dy sx sy : Int) :
    ∀ (fuel : Nat) (x y err : Int) (out : List Pt),
      bresenhamLoop x2 y2 dx dy sx sy fuel x y err out =
        (bresenhamLoop x2 y2 dx dy sx sy fuel x y err []).map (fun l => out ++ l) := by
  intro fuel
  induction fuel with
  | zero => intro x y err out; simp [bresenhamLoop]
  | succ n ih =>
    intro x y err out
    simp only [bresenhamLoop, List.nil_append]
    split
    · simp
    · rw [ih _ _ _ (out ++ [Pt.mk x y]), ih _ _ _ [Pt.mk x y]]
      cases bresenhamLoop x2 y2 dx dy sx sy n _ _ _ [] <;> simp

theorem bresenhamLoop_target (x2 y2 dx dy sx sy : Int) (n : Nat) (err : Int) (out : List Pt) :
    bresenhamLoop x2 y2 dx dy sx sy (n + 1) x2 y2 err out = some (out ++ [⟨x2, y2⟩]) := by
  simp [bresenhamLoop]

theorem bresenhamLoop_succ (x2 y2 dx dy sx sy : Int) (n : Nat) (x y err : Int)
    (h : ¬ (x = x2 ∧ y = y2)) :
    bresenhamLoop x2 y2 dx dy sx sy (n + 1) x y err [] =
      (bresenhamLoop x2 y2 dx dy sx sy n
        (if 2 * err > -dy then x + sx else x)
        (if 2 * err < dx then y + sy else y)
        (if 2 * err < dx then (if 2 * err > -dy then err - dy else err) + dx
          else (if 2 * err > -dy then err - dy else err)) []).map
        (fun l => (⟨x, y⟩ : Pt) :: l) := by
  conv_lhs => unfold bresenhamLoop
  simp only [List.nil_append, if_neg h]
  rw [bresenhamLoop_acc]
  rfl

/-- Loop invariant of the stepper. With `a` steps left in `x` and `b` steps
left in `y`, the error term is `(dy-b+1)*dx - (dx-a+1)*dy`; from such a state
the loop reaches the target within `a+b+1` iterations, moving to an 8-neighbour
each time. -/
theorem bresenhamLoop_run (x2 y2 dx dy sx sy : Int)
    (hsx : sx = 1 ∨ sx = -1) (hsy : sy = 1 ∨ sy = -1) :
    ∀ (m : Nat) (x y err a b : Int), 0 ≤ a → a ≤ dx → 0 ≤ b → b ≤ dy → a + b ≤ m →
      x2 - x = sx * a → y2 - y = sy * b →
      err = (dy - b + 1) * dx - (dx - a + 1) * dy →
      ∃ pts : List Pt,
        (∀ k, bresenhamLoop x2 y2 dx dy sx sy (k + m + 1) x y err [] = some (⟨x, y⟩ :: pts)) ∧
        (⟨x, y⟩ :: pts).getLast? = some ⟨x2, y2⟩ ∧
        List.Chain Step8 ⟨x, y⟩ pts ∧ (pts.length : Int) ≤ a + b := by
  intro m
  induction m with
  | zero =>
    intro x y err a b ha _ hb _ hab hx hy _
    have ha0 : a = 0 := by omega
    have hb0 : b = 0 := by omega
    subst ha0; subst hb0
    have hx2 : x = x2 := by linarith
    have hy2 : y = y2 := by linarith
    subst hx2; subst hy2
    refine ⟨[], ?_, by simp, List.Chain.nil, by simp⟩
    intro k
    rw [bresenhamLoop_target]; rfl
  | succ n ih =>
    intro x y err a b ha hadx hb hbdy hab hx hy herr
    by_cases htgt : x = x2 ∧ y = y2
    · obtain ⟨hx2, hy2⟩ := htgt
      subst hx2; subst hy2
      refine ⟨[], ?_, by simp, List.Chain.nil, by simp; omega⟩
      intro k
      rw [bresenhamLoop_target]; rfl
    · have hpos : 0 < a ∨ 0 < b := by
        by_contra hcon
        push_neg at hcon
        have ha0 : a = 0 := by omega
        have hb0 : b = 0 := by omega
        subst ha0; subst hb0
        exact htgt ⟨by linarith, by linarith⟩
      have hdx : 0 ≤ dx := le_trans ha hadx
      have hdy : 0 ≤ dy := le_trans hb hbdy
      -- an x-step is taken only while x-steps remain
      have hX : 2 * err > -dy → 0 < a := by
        intro h
        by_contra hcon
        have ha0 : a = 0 := by omega
        have hb1 : 0 ≤ b - 1 := by omega
        have hp := mul_nonneg hb1 hdx
        subst ha0
        nlinarith
      -- a y-step is taken only while y-steps remain
      have hY : 2 * err < dx → 0 < b := by
        intro h
        by_contra hcon
        have hb0 : b = 0 := by omega
        have ha1 : 0 ≤ a - 1 := by omega
        have hp := mul_nonneg ha1 hdy
        subst hb0
        nlinarith
      -- some step is taken
      have hXY : 2 * err > -dy ∨ 2 * err < dx := by
        by_contra hcon
        push_neg at hcon
        have hdx0 : dx = 0 := by omega
        have hdy0 : dy = 0 := by omega
        omega
      have hstep := fun k => bresenhamLoop_succ x2 y2 dx dy sx sy (k + n + 1) x y err htgt
      by_cases hcx : 2 * err > -dy <;> by_cases hcy : 2 * err < dx
      · -- diagonal step
        obtain ⟨pts, hrun, hlast, hchain, hlen⟩ :=
          ih (x + sx) (y + sy) (err - dy + dx) (a - 1) (b - 1)
            (by have := hX hcx; omega) (by omega) (by have := hY hcy; omega) (by omega)
            (by have := hX hcx; omega)
            (by rw [mul_sub, mul_one]; linarith) (by rw [mul_sub, mul_one]; linarith)
            (by rw [herr]; ring)
        refine ⟨⟨x + sx, y + sy⟩ :: pts, ?_, ?_, ?_, ?_⟩
        · intro k
          show bresenhamLoop x2 y2 dx dy sx sy ((k + n + 1) + 1) x y err [] = _
          rw [hstep k]; simp only [if_pos hcx, if_pos hcy]
          rw [hrun k]; rfl
        · rw [List.getLast?_cons_cons]; exact hlast
        · refine List.Chain.cons ?_ hchain
          simp only [Step8, add_sub_cancel_left]
          rcases hsx with h | h <;> rcases hsy with h' | h' <;> subst h <;> subst h' <;> simp
        · simp only [List.length_cons, Nat.cast_add, Nat.cast_one]; omega
      · -- x-step
        obtain ⟨pts, hrun, hlast, hchain, hlen⟩ :=
          ih (x + sx) y (err - dy) (a - 1) b
            (by have := hX hcx; omega) (by omega) hb hbdy
            (by have := hX hcx; omega)
            (by rw [mul_sub, mul_one]; linarith) hy
            (by rw [herr]; ring)
        refine ⟨⟨x + sx, y⟩ :: pts, ?_, ?_, ?_, ?_⟩
        · intro k
          show bresenhamLoop x2 y2 dx dy sx sy ((k + n + 1) + 1) x y err [] = _
          rw [hstep k]; simp only [if_pos hcx, if_neg hcy]
          rw [hrun k]; rfl
        · rw [List.getLast?_cons_cons]; exact hlast
        · refine List.Chain.cons ?_ hchain
          simp only [Step8, add_sub_cancel_left, sub_self]
          rcases hsx with h | h <;> subst h <;> simp
        · simp only [List.length_cons, Nat.cast_add, Nat.cast_one]; omega
      · -- y-step
        obtain ⟨pts, hrun, hlast, hchain, hlen⟩ :=
          ih x (y + sy) (err + dx) a (b - 1)
            ha hadx (by have := hY hcy; omega) (by omega)
            (by have := hY hcy; omega)
            hx (by rw [mul_sub, mul_one]; linarith)
            (by rw [herr]; ring)
        refine ⟨⟨x, y + sy⟩ :: pts, ?_, ?_, ?_, ?_⟩
        · intro k
          show bresenhamLoop x2 y2 dx dy sx sy ((k + n + 1) + 1) x y err [] = _
          rw [hstep k]; simp only [if_neg hcx, if_pos hcy]
          rw [hrun k]; rfl
        · rw [List.getLast?_cons_cons]; exact hlast
        · refine List.Chain.cons ?_ hchain
          simp only [Step8, add_sub_cancel_left, sub_self]
          rcases hsy with h | h <;> subst h <;> simp
        · simp only [List.length_cons, Nat.cast_add, Nat.cast_one]; omega
      · exact absurd hXY (by push_neg; exact ⟨by omega, by omega⟩)

theorem bresenhamPixels_run (x1 y1 x2 y2 : Int) :
    ∃ pts : List Pt,
      (∀ k, bresenhamPixels ((|x2 - x1| + |y2 - y1|).toNat + 1 + k) x1 y1 x2 y2 =
        some (⟨x1, y1⟩ :: pts)) ∧
      (⟨x1, y1⟩ :: pts).getLast? = some ⟨x2, y2⟩ ∧
      List.Chain Step8 ⟨x1, y1⟩ pts ∧ (pts.length : Int) ≤ |x2 - x1| + |y2 - y1| := by
  have hax : 0 ≤ |x2 - x1| := abs_nonneg _
  have hay : 0 ≤ |y2 - y1| := abs_nonneg _
  have hsx : x2 - x1 = (if x1 < x2 then (1 : Int) else -1) * |x2 - x1| := by
    split
    · rw [abs_of_pos (by omega)]; ring
    · rw [abs_of_nonpos (by omega)]; ring
  have hsy : y2 - y1 = (if y1 < y2 then (1 : Int) else -1) * |y2 - y1| := by
    split
    · rw [abs_of_pos (by omega)]; ring
    · rw [abs_of_nonpos (by omega)]; ring
  obtain ⟨pts, hrun, hrest⟩ :=
    bresenhamLoop_run x2 y2 |x2 - x1| |y2 - y1|
      (if x1 < x2 then 1 else -1) (if y1 < y2 then 1 else -1)
      (by split <;> simp) (by split <;> simp)
      (|x2 - x1| + |y2 - y1|).toNat x1 y1 (|x2 - x1| - |y2 - y1|) |x2 - x1| |y2 - y1|
      hax le_rfl hay le_rfl (by omega) hsx hsy (by ring)
  refine ⟨pts, ?_, hrest⟩
  intro k
  have h := hrun k
  rw [show k + (|x2 - x1| + |y2 - y1|).toNat + 1 = (|x2 - x1| + |y2 - y1|).toNat + 1 + k by
    omega] at h
  exact h

/-! ## Liang-Barsky clipper: loop lemmas -/

theorem clipEdge_eq_none (p q : ℚ) (t : ℚ × ℚ) :
    clipEdge p q t = none ↔ p = 0 ∧ q < 0 := by
  unfold clipEdge
  split_ifs <;> simp [*]

/-- One edge test narrows the admissible parameter interval by exactly the
half-line `p * s ≤ q`. -/
theorem clipEdge_some (p q : ℚ) (t u : ℚ × ℚ) (h : clipEdge p q t = some u) (s : ℚ) :
    (t.1 ≤ s ∧ s ≤ t.2 ∧ p * s ≤ q) ↔ (u.1 ≤ s ∧ s ≤ u.2) := by
  unfold clipEdge at h
  split_ifs at h with h0 hq hneg
  · simp only [Option.some.injEq] at h
    subst h; subst h0
    have : (0 : ℚ) ≤ q := not_lt.mp hq
    simp [this]
  · simp only [Option.some.injEq] at h
    subst h
    simp only [max_le_iff]
    rw [div_le_iff_of_neg hneg, mul_comm s p]
    tauto
  · have hpos : 0 < p := lt_of_le_of_ne (not_lt.mp hneg) (Ne.symm h0)
    simp only [Option.some.injEq] at h
    subst h
    simp only [le_min_iff]
    rw [le_div_iff₀ hpos, mul_comm s p]

/-- Where an edge test changes a bound, the new bound is the quotient `q / p`. -/
theorem clipEdge_origin (p q : ℚ) (t u : ℚ × ℚ) (h : clipEdge p q t = some u) :
    (u.1 = t.1 ∨ (p < 0 ∧ u.1 = q / p)) ∧ (u.2 = t.2 ∨ (0 < p ∧ u.2 = q / p)) := by
  unfold clipEdge at h
  split_ifs at h with h0 hq hneg
  · simp only [Option.some.injEq] at h
    subst h; simp
  · simp only [Option.some.injEq] at h
    subst h
    refine ⟨?_, Or.inl rfl⟩
    rcases max_choice t.1 (q / p) with hm | hm
    · exact Or.inl hm
    · exact Or.inr ⟨hneg, hm⟩
  · have hpos : 0 < p := lt_of_le_of_ne (not_lt.mp hneg) (Ne.symm h0)
    simp only [Option.some.injEq] at h
    subst h
    refine ⟨Or.inl rfl, ?_⟩
    rcases min_choice t.2 (q / p) with hm | hm
    · exact Or.inl hm
    · exact Or.inr ⟨hpos, hm⟩

theorem clipFold_some :
    ∀ (L : List (ℚ × ℚ)) (t u : ℚ × ℚ),
      L.foldlM (fun t pq => clipEdge pq.1 pq.2 t) t = some u →
      ∀ s : ℚ, (t.1 ≤ s ∧ s ≤ t.2 ∧ ∀ pq ∈ L, pq.1 * s ≤ pq.2) ↔ (u.1 ≤ s ∧ s ≤ u.2) := by
  intro L
  induction L with
  | nil =>
    intro t u h s
    simp only [List.foldlM_nil] at h
    cases h
    simp
  | cons a L ih =>
    intro t u h s
    simp only [List.foldlM_cons] at h
    cases hstep : clipEdge a.1 a.2 t with
    | none => rw [hstep] at h; cases h
    | some v =>
      rw [hstep] at h
      have h1 := clipEdge_some a.1 a.2 t v hstep s
      have h2 := ih v u h s
      rw [← h2]
      simp only [List.mem_cons, forall_eq_or_imp]
      tauto

theorem clipFold_none :
    ∀ (L : List (ℚ × ℚ)) (t : ℚ × ℚ),
      L.foldlM (fun t pq => clipEdge pq.1 pq.2 t) t = none →
      ∀ s : ℚ, ¬ ∀ pq ∈ L, pq.1 * s ≤ pq.2 := by
  intro L
  induction L with
  | nil => intro t h; simp only [List.foldlM_nil] at h; cases h
  | cons a L ih =>
    intro t h s hall
    simp only [List.foldlM_cons] at h
    cases hstep : clipEdge a.1 a.2 t with
    | none =>
      obtain ⟨hp, hq⟩ := (clipEdge_eq_none a.1 a.2 t).mp hstep
      have := hall a (List.mem_cons_self _ _)
      rw [hp, zero_mul] at this
      exact absurd hq (not_lt.mpr this)
    | some v =>
      rw [hstep] at h
      exact ih v h s (fun pq hpq => hall pq (List.mem_cons_of_mem _ hpq))

theorem clipFold_origin :
    ∀ (L : List (ℚ × ℚ)) (t u : ℚ × ℚ),
      L.foldlM (fun t pq => clipEdge pq.1 pq.2 t) t = some u →
      (u.1 = t.1 ∨ ∃ pq ∈ L, pq.1 < 0 ∧ u.1 = pq.2 / pq.1) ∧
      (u.2 = t.2 ∨ ∃ pq ∈ L, 0 < pq.1 ∧ u.2 = pq.2 / pq.1) := by
  intro L
  induction L with
  | nil =>
    intro t u h
    simp only [List.foldlM_nil] at h
    cases h
    simp
  | cons a L ih =>
    intro t u h
    simp only [List.foldlM_cons] at h
    cases hstep : clipEdge a.1 a.2 t with
    | none => rw [hstep] at h; cases h
    | some v =>
      rw [hstep] at h
      obtain ⟨o1, o2⟩ := clipEdge_origin a.1 a.2 t v hstep
      obtain ⟨i1, i2⟩ := ih v u h
      constructor
      · rcases i1 with i1 | ⟨pq, hpq, hlt, heq⟩
        · rcases o1 with o1 | ⟨hlt, heq⟩
          · exact Or.inl (i1.trans o1)
          · exact Or.inr ⟨a, List.mem_cons_self _ _, hlt, i1.trans heq⟩
        · exact Or.inr ⟨pq, List.mem_cons_of_mem _ hpq, hlt, heq⟩
      · rcases i2 with i2 | ⟨pq, hpq, hlt, heq⟩
        · rcases o2 with o2 | ⟨hlt, heq⟩
          · exact Or.inl (i2.trans o2)
          · exact Or.inr ⟨a, List.mem_cons_self _ _, hlt, i2.trans heq⟩
        · exact Or.inr ⟨pq, List.mem_cons_of_mem _ hpq, hlt, heq⟩

/-- The four `(p, q)` pairs of `liangBarskyClip` state membership of the point
at parameter `s` in the closed rectangle. -/
theorem edges_iff_inside (w : ClipRect) (x1 y1 x2 y2 s : ℚ) :
    (∀ pq ∈ List.zip [-(x2 - x1), x2 - x1, -(y2 - y1), y2 - y1]
        [x1 - w.xmin, w.xmax - x1, y1 - w.ymin, w.ymax - y1], pq.1 * s ≤ pq.2) ↔
      Inside w (x1 + s * (x2 - x1)) (y1 + s * (y2 - y1)) := by
  simp only [List.zip_cons_cons, List.zip_nil_right, List.mem_cons, List.mem_singleton,
    List.not_mem_nil, or_false, forall_eq_or_imp, forall_eq, Inside]
  constructor
  · rintro ⟨h1, h2, h3, h4⟩
    exact ⟨by linarith, by linarith, by linarith, by linarith⟩
  · rintro ⟨h1, h2, h3, h4⟩
    exact ⟨by linarith, by linarith, by linarith, by linarith⟩

theorem liangBarskyParams_some (w : ClipRect) (x1 y1 x2 y2 : ℚ) (t : ℚ × ℚ)
    (h : liangBarskyParams w x1 y1 x2 y2 = some t) :
    0 ≤ t.1 ∧ t.1 ≤ t.2 ∧ t.2 ≤ 1 ∧
      ∀ s : ℚ, 0 ≤ s → s ≤ 1 →
        (Inside w (x1 + s * (x2 - x1)) (y1 + s * (y2 - y1)) ↔ t.1 ≤ s ∧ s ≤ t.2) := by
  unfold liangBarskyParams at h
  simp only at h
  split at h
  · cases h
  · rename_i u hfold
    split_ifs at h with hgt
    simp only [Option.some.injEq] at h
    subst h
    have hle : u.1 ≤ u.2 := not_lt.mp hgt
    have key := clipFold_some _ _ _ hfold
    have k1 := (key u.1).mpr ⟨le_rfl, hle⟩
    have k2 := (key u.2).mpr ⟨hle, le_rfl⟩
    refine ⟨k1.1, hle, k2.2.1, ?_⟩
    intro s hs0 hs1
    rw [← key s, edges_iff_inside]
    simp only
    tauto

theorem liangBarskyParams_none (w : ClipRect) (x1 y1 x2 y2 : ℚ)
    (h : liangBarskyParams w x1 y1 x2 y2 = none) :
    ∀ s : ℚ, 0 ≤ s → s ≤ 1 → ¬ Inside w (x1 + s * (x2 - x1)) (y1 + s * (y2 - y1)) := by
  intro s hs0 hs1 hin
  unfold liangBarskyParams at h
  simp only at h
  split at h
  · rename_i hfold
    exact clipFold_none _ _ hfold s ((edges_iff_inside w x1 y1 x2 y2 s).mpr hin)
  · rename_i u hfold
    split_ifs at h with hgt
    have key := (clipFold_some _ _ _ hfold s).mp
      ⟨hs0, hs1, (edges_iff_inside w x1 y1 x2 y2 s).mpr hin⟩
    exact absurd (le_trans key.1 key.2) (not_le.mpr hgt)

/-! ## Midpoint circle stepper: loop lemmas -/

theorem midpointLoop_exit (xc yc : Int) (n : Nat) (x y d : Int) (h : ¬ x ≤ y) :
    midpointLoop xc yc (n + 1) x y d = some [] := by
  simp [midpointLoop, h]

theorem midpointLoop_succ (xc yc : Int) (n : Nat) (x y d : Int) (h : x ≤ y) :
    midpointLoop xc yc (n + 1) x y d =
      (midpointLoop xc yc n (x + 1) (if d < 0 then y else y - 1)
        (if d < 0 then d + (2 * x + 3) else d + (2 * (x - y) + 5))).map
        (fun rest => plotCirclePoints xc yc x y ++ rest) := by
  simp [midpointLoop, h]

/-- The `while (x <= y)` loop ends: `y + 1 - x` bounds the iterations left. -/
theorem midpointLoop_total (xc yc : Int) :
    ∀ (m : Nat) (x y d : Int), y + 1 - x ≤ m →
      ∃ pts : List Pt, ∀ k, midpointLoop xc yc (k + m + 1) x y d = some pts := by
  intro m
  induction m with
  | zero =>
    intro x y d hm
    exact ⟨[], fun k => midpointLoop_exit xc yc _ x y d (by omega)⟩
  | succ n ih =>
    intro x y d hm
    by_cases hxy : x ≤ y
    · obtain ⟨pts, hpts⟩ := ih (x + 1) (if d < 0 then y else y - 1)
        (if d < 0 then d + (2 * x + 3) else d + (2 * (x - y) + 5))
        (by split <;> omega)
      refine ⟨plotCirclePoints xc yc x y ++ pts, fun k => ?_⟩
      show midpointLoop xc yc ((k + n + 1) + 1) x y d = _
      rw [midpointLoop_succ xc yc _ x y d hxy, hpts k]
      rfl
    · exact ⟨[], fun k => midpointLoop_exit xc yc _ x y d hxy⟩

/-- Every plotted point comes with the whole eight-point group of its
`plotCirclePoints` call. -/
theorem midpointLoop_groups (xc yc : Int) :
    ∀ (fuel : Nat) (x y d : Int) (pts : List Pt),
      midpointLoop xc yc fuel x y d = some pts →
      ∀ p ∈ pts, ∃ u v : Int, p ∈ plotCirclePoints xc yc u v ∧
        ∀ q ∈ plotCirclePoints xc yc u v, q ∈ pts := by
  intro fuel
  induction fuel with
  | zero => intro x y d pts h; simp [midpointLoop] at h
  | succ n ih =>
    intro x y d pts h p hp
    by_cases hxy : x ≤ y
    · rw [midpointLoop_succ xc yc n x y d hxy] at h
      cases hrest : midpointLoop xc yc n (x + 1) (if d < 0 then y else y - 1)
          (if d < 0 then d + (2 * x + 3) else d + (2 * (x - y) + 5)) with
      | none => rw [hrest] at h; cases h
      | some rest =>
        rw [hrest] at h
        simp only [Option.map_some', Option.some.injEq] at h
        subst h
        rcases List.mem_append.mp hp with hp | hp
        · exact ⟨x, y, hp, fun q hq => List.mem_append_left _ hq⟩
        · obtain ⟨u, v, hpuv, hall⟩ := ih _ _ _ rest hrest p hp
          exact ⟨u, v, hpuv, fun q hq => List.mem_append_right _ (hall q hq)⟩
    · rw [midpointLoop_exit xc yc n x y d hxy] at h
      simp only [Option.some.injEq] at h
      subst h
      simp at hp

theorem plotCirclePoints_norm (xc yc x y : Int) (p : Pt) (hp : p ∈ plotCirclePoints xc yc x y) :
    (p.x - xc) ^ 2 + (p.y - yc) ^ 2 = x ^ 2 + y ^ 2 := by
  simp only [plotCirclePoints, List.mem_cons, List.mem_singleton, List.not_mem_nil,
    or_false] at hp
  rcases hp with h | h | h | h | h | h | h | h <;> subst h <;> simp only <;> ring

theorem midpointInv_step (r x y d : Int) (hinv : MidpointInv r x y d) (hxy : x ≤ y) :
    MidpointInv r (x + 1) (if d < 0 then y else y - 1)
      (if d < 0 then d + (2 * x + 3) else d + (2 * (x - y) + 5)) := by
  unfold MidpointInv at hinv ⊢
  obtain ⟨hx, hyr, hd, hb⟩ := hinv
  obtain ⟨hlo, hhi⟩ := hb hxy
  have e1 : (x + 1) ^ 2 + y ^ 2 - r ^ 2 = (x ^ 2 + y ^ 2 - r ^ 2) + 2 * x + 1 := by ring
  have e2 : (x + 1) ^ 2 + (y - 1) ^ 2 - r ^ 2 = (x ^ 2 + y ^ 2 - r ^ 2) + 2 * x - 2 * y + 2 := by
    ring
  generalize x ^ 2 + y ^ 2 - r ^ 2 = e at *
  by_cases hneg : d < 0
  · simp only [if_pos hneg]
    generalize (x + 1) ^ 2 + y ^ 2 - r ^ 2 = f at *
    exact ⟨by omega, hyr, by omega, fun _ => ⟨by omega, by omega⟩⟩
  · simp only [if_neg hneg]
    generalize (x + 1) ^ 2 + (y - 1) ^ 2 - r ^ 2 = f at *
    exact ⟨by omega, by omega, by omega, fun _ => ⟨by omega, by omega⟩⟩

/-- Every point the loop plots from a state satisfying the invariant lies
within `r` of the circle of radius `r`, measured by `x² + y² - r²`. -/
theorem midpointLoop_bound (xc yc r : Int) :
    ∀ (fuel : Nat) (x y d : Int) (pts : List Pt),
      midpointLoop xc yc fuel x y d = some pts → MidpointInv r x y d →
      ∀ p ∈ pts, |(p.x - xc) ^ 2 + (p.y - yc) ^ 2 - r ^ 2| ≤ r := by
  intro fuel
  induction fuel with
  | zero => intro x y d pts h; simp [midpointLoop] at h
  | succ n ih =>
    intro x y d pts h hinv p hp
    by_cases hxy : x ≤ y
    · rw [midpointLoop_succ xc yc n x y d hxy] at h
      cases hrest : midpointLoop xc yc n (x + 1) (if d < 0 then y else y - 1)
          (if d < 0 then d + (2 * x + 3) else d + (2 * (x - y) + 5)) with
      | none => rw [hrest] at h; cases h
      | some rest =>
        rw [hrest] at h
        simp only [Option.map_some', Option.some.injEq] at h
        subst h
        rcases List.mem_append.mp hp with hp | hp
        · rw [plotCirclePoints_norm xc yc x y p hp]
          obtain ⟨_, hyr, _, hb⟩ := hinv
          obtain ⟨hlo, hhi⟩ := hb hxy
          exact abs_le.mpr ⟨by omega, hhi⟩
        · exact ih _ _ _ rest hrest (midpointInv_step r x y d hinv hxy) p hp
    · rw [midpointLoop_exit xc yc n x y d hxy] at h
      simp only [Option.some.injEq] at h
      subst h
      simp at hp

theorem midpointInv_init (r : Int) : MidpointInv r 0 r (1 - r) := by
  refine ⟨le_rfl, le_rfl, by ring, fun h => ⟨?_, ?_⟩⟩
  · have : (0 : Int) ^ 2 + r ^ 2 - r ^ 2 = 0 := by ring
    omega
  · have : (0 : Int) ^ 2 + r ^ 2 - r ^ 2 = 0 := by ring
    omega

/-- The passes of the `for (t ...)` loop: pass by pass, the output of the inner
loop started at `y = radius + t`. -/
theorem midpointPasses_forall₂ (xc yc radius : Int) (fuel : Nat) :
    ∀ (ts : List Nat) (passes : List (List Pt)),
      midpointPasses xc yc radius fuel ts = some passes →
      List.Forall₂ (fun (t : Nat) (pass : List Pt) =>
        midpointLoop xc yc fuel 0 (radius + (t : Int)) (1 - (radius + (t : Int))) = some pass)
        ts passes := by
  intro ts
  induction ts with
  | nil =>
    intro passes h
    simp only [midpointPasses, Option.some.injEq] at h
    subst h
    exact List.Forall₂.nil
  | cons t ts ih =>
    intro passes h
    unfold midpointPasses at h
    split at h
    · rename_i pass rest h1 h2
      simp only [Option.some.injEq] at h
      subst h
      exact List.Forall₂.cons h1 (ih rest h2)
    · cases h

theorem midpointPasses_total (xc yc radius : Int) (m : Nat) :
    ∀ ts : List Nat, (∀ t ∈ ts, radius + t + 1 ≤ m) →
      ∃ passes : List (List Pt),
        ∀ k, midpointPasses xc yc radius (k + m + 1) ts = some passes := by
  intro ts
  induction ts with
  | nil => intro _; exact ⟨[], fun k => rfl⟩
  | cons t ts ih =>
    intro hts
    obtain ⟨rest, hrest⟩ := ih (fun u hu => hts u (List.mem_cons_of_mem _ hu))
    obtain ⟨pass, hpass⟩ := midpointLoop_total xc yc m 0 (radius + t) (1 - (radius + t))
      (by have := hts t (List.mem_cons_self _ _); omega)
    refine ⟨pass :: rest, fun k => ?_⟩
    unfold midpointPasses
    rw [hpass k, hrest k]

theorem drawCircleMidpointPasses_total (xc yc R T : Int) :
    ∃ passes : List (List Pt),
      ∀ k, drawCircleMidpointPasses ((R + T).toNat + 1 + k) xc yc R T = some passes := by
  obtain ⟨passes, h⟩ := midpointPasses_total xc yc R (R + T).toNat (List.range T.toNat)
    (by intro t ht; have := List.mem_range.mp ht; omega)
  refine ⟨passes, fun k => ?_⟩
  have := h k
  rw [show k + (R + T).toNat + 1 = (R + T).toNat + 1 + k by omega] at this
  exact this

/-! ## Brush stamper: lemmas -/

theorem mem_intRange (lo hi v : Int) : v ∈ intRange lo hi ↔ lo ≤ v ∧ v ≤ hi := by
  simp only [intRange, List.mem_map, List.mem_range]
  constructor
  · rintro ⟨i, hi, rfl⟩
    omega
  · rintro ⟨h1, h2⟩
    exact ⟨(v - lo).toNat, by omega, by omega⟩

theorem length_intRange (lo hi : Int) : (intRange lo hi).length = (hi - lo + 1).toNat := by
  simp [intRange]

theorem nodup_intRange (lo hi : Int) : (intRange lo hi).Nodup := by
  unfold intRange
  refine List.Nodup.map ?_ (List.nodup_range _)
  intro a b hab
  simp only at hab
  omega

theorem length_flatMap_const {α β : Type} (f : α → List β) (n : Nat)
    (hf : ∀ a, (f a).length = n) : ∀ L : List α, (L.flatMap f).length = L.length * n := by
  intro L
  induction L with
  | nil => simp
  | cons a L ih =>
    rw [List.flatMap_cons, List.length_append, ih, hf, List.length_cons]
    ring

theorem mem_drawSquareBrush (cx cy W : Int) (p : Pt) :
    p ∈ drawSquareBrush cx cy W ↔
      ∃ dy dx : Int, (-(Int.tdiv W 2) ≤ dy ∧ dy ≤ Int.tdiv W 2) ∧
        (-(Int.tdiv W 2) ≤ dx ∧ dx ≤ Int.tdiv W 2) ∧ p = ⟨cx + dx, cy + dy⟩ := by
  simp only [drawSquareBrush, List.mem_flatMap, List.mem_map, mem_intRange]
  constructor
  · rintro ⟨dy, hdy, dx, hdx, rfl⟩
    exact ⟨dy, dx, hdy, hdx, rfl⟩
  · rintro ⟨dy, dx, hdy, hdx, rfl⟩
    exact ⟨dy, hdy, dx, hdx, rfl⟩

theorem nodup_drawSquareBrush (cx cy W : Int) : (drawSquareBrush cx cy W).Nodup := by
  unfold drawSquareBrush
  simp only
  rw [List.nodup_flatMap]
  constructor
  · intro dy _
    refine List.Nodup.map ?_ (nodup_intRange _ _)
    intro a b hab
    simp only [Pt.mk.injEq] at hab
    omega
  · refine List.Pairwise.imp ?_ (nodup_intRange _ _)
    intro a b hab
    simp only [Function.onFun, List.disjoint_left, List.mem_map]
    rintro p ⟨dx, _, rfl⟩ ⟨dx', _, h⟩
    simp only [Pt.mk.injEq] at h
    omega

theorem length_drawSquareBrush (cx cy W : Int) :
    (drawSquareBrush cx cy W).length =
      (2 * Int.tdiv W 2 + 1).toNat * (2 * Int.tdiv W 2 + 1).toNat := by
  unfold drawSquareBrush
  simp only
  rw [length_flatMap_const _ (2 * Int.tdiv W 2 + 1).toNat, length_intRange]
  · congr 2; ring
  · intro a
    rw [List.length_map, length_intRange]
    congr 1; ring

theorem mem_drawCircleBrush (cx cy r : Int) (p : Pt) :
    p ∈ drawCircleBrush cx cy r ↔
      ∃ dy dx : Int, (-r ≤ dy ∧ dy ≤ r) ∧
        (-(Nat.sqrt (r * r - dy * dy).toNat : Int) ≤ dx ∧
          dx ≤ (Nat.sqrt (r * r - dy * dy).toNat : Int)) ∧
        p = ⟨cx + dx, cy + dy⟩ := by
  simp only [drawCircleBrush, List.mem_flatMap, List.mem_map, mem_intRange]
  constructor
  · rintro ⟨dy, hdy, dx, hdx, rfl⟩
    exact ⟨dy, dx, hdy, hdx, rfl⟩
  · rintro ⟨dy, dx, hdy, hdx, rfl⟩
    exact ⟨dy, hdy, dx, hdx, rfl⟩

/-- A row offset `dx` within the half-width of row `dy` lies in the disk. -/
theorem row_in_disk (r dy dx : Int) (hdy : -r ≤ dy ∧ dy ≤ r)
    (hdx : -(Nat.sqrt (r * r - dy * dy).toNat : Int) ≤ dx ∧
      dx ≤ (Nat.sqrt (r * r - dy * dy).toNat : Int)) :
    dx * dx + dy * dy ≤ r * r := by
  have h1 : 0 ≤ r - dy := by linarith [hdy.2]
  have h2 : 0 ≤ r + dy := by linarith [hdy.1]
  have hnn : 0 ≤ r * r - dy * dy := by nlinarith [mul_nonneg h1 h2]
  have hs : ((Nat.sqrt (r * r - dy * dy).toNat * Nat.sqrt (r * r - dy * dy).toNat : Nat) : Int)
      ≤ ((r * r - dy * dy).toNat : Int) := by
    exact_mod_cast Nat.sqrt_le (r * r - dy * dy).toNat
  rw [Int.toNat_of_nonneg hnn] at hs
  push_cast at hs
  have h3 : 0 ≤ (Nat.sqrt (r * r - dy * dy).toNat : Int) - dx := by linarith [hdx.2]
  have h4 : 0 ≤ (Nat.sqrt (r * r - dy * dy).toNat : Int) + dx := by linarith [hdx.1]
  nlinarith [mul_nonneg h3 h4]

/-! ## Further lemmas for the claims -/

theorem clipEdge_keep (p q : ℚ) (hq : 0 ≤ q) (hpq : p ≤ q) :
    clipEdge p q (0, 1) = some (0, 1) := by
  unfold clipEdge
  split_ifs with h0 hlt hneg
  · exact absurd hq (not_le.mpr hlt)
  · rfl
  · have : q / p ≤ 0 := div_nonpos_of_nonneg_of_nonpos hq hneg.le
    simp [max_eq_left this]
  · have hpos : 0 < p := lt_of_le_of_ne (not_lt.mp hneg) (Ne.symm h0)
    have : 1 ≤ q / p := (one_le_div hpos).mpr hpq
    simp [min_eq_left this]

theorem forall₂_getElem? {α β : Type} {R : α → β → Prop} {l₁ : List α} {l₂ : List β}
    (h : List.Forall₂ R l₁ l₂) :
    ∀ (t : Nat) (b : β), l₂[t]? = some b → ∃ a, l₁[t]? = some a ∧ R a b := by
  induction h with
  | nil => intro t b hb; simp at hb
  | cons hab _ ih =>
    intro t b hb
    cases t with
    | zero =>
      simp only [List.getElem?_cons_zero, Option.some.injEq] at hb
      subst hb
      exact ⟨_, by simp, hab⟩
    | succ n =>
      simp only [List.getElem?_cons_succ] at hb
      obtain ⟨a, ha, hr⟩ := ih n b hb
      exact ⟨a, by simpa using ha, hr⟩

/-- The eight-point group of `plotCirclePoints` is closed under the two axis
reflections, the point reflection and the diagonal swap of offsets. -/
theorem plotCirclePoints_closed (xc yc u v dx dy : Int)
    (h : (⟨xc + dx, yc + dy⟩ : Pt) ∈ plotCirclePoints xc yc u v) :
    (⟨xc - dx, yc + dy⟩ : Pt) ∈ plotCirclePoints xc yc u v ∧
    (⟨xc + dx, yc - dy⟩ : Pt) ∈ plotCirclePoints xc yc u v ∧
    (⟨xc - dx, yc - dy⟩ : Pt) ∈ plotCirclePoints xc yc u v ∧
    (⟨xc + dy, yc + dx⟩ : Pt) ∈ plotCirclePoints xc yc u v := by
  simp only [plotCirclePoints, List.mem_cons, List.mem_singleton, Pt.mk.injEq,
    List.not_mem_nil, or_false, sub_eq_add_neg, add_right_inj] at h
  rcases h with h | h | h | h | h | h | h | h <;> obtain ⟨hx, hy⟩ := h <;> subst hx <;>
    subst hy <;> simp [plotCirclePoints, sub_eq_add_neg]

theorem liangBarskyParams_fold (w : ClipRect) (x1 y1 x2 y2 : ℚ) (u : ℚ × ℚ)
    (hp : liangBarskyParams w x1 y1 x2 y2 = some u) :
    (List.zip [-(x2 - x1), x2 - x1, -(y2 - y1), y2 - y1]
        [x1 - w.xmin, w.xmax - x1, y1 - w.ymin, w.ymax - y1]).foldlM
      (fun t pq => clipEdge pq.1 pq.2 t) ((0 : ℚ), (1 : ℚ)) = some u := by
  unfold liangBarskyParams at hp
  simp only at hp
  split at hp
  · cases hp
  · rename_i v hfold
    split_ifs at hp
    simp only [Option.some.injEq] at hp
    subst hp
    exact hfold

/-- The point at a parameter `q / p` taken from one of the four edge tests has
a coordinate equal to that edge's bound. -/
theorem quotient_on_edge (w : ClipRect) (x1 y1 x2 y2 t : ℚ) (pq : ℚ × ℚ)
    (hmem : pq ∈ List.zip [-(x2 - x1), x2 - x1, -(y2 - y1), y2 - y1]
        [x1 - w.xmin, w.xmax - x1, y1 - w.ymin, w.ymax - y1])
    (hne : pq.1 ≠ 0) (ht : t = pq.2 / pq.1) :
    OnEdge w (x1 + t * (x2 - x1)) (y1 + t * (y2 - y1)) := by
  simp only [List.zip_cons_cons, List.zip_nil_right, List.mem_cons, List.mem_singleton,
    List.not_mem_nil, or_false] at hmem
  rcases hmem with h | h | h | h <;> subst h <;> simp only at hne ht <;> subst ht
  · have hd : x2 - x1 ≠ 0 := fun h0 => hne (by rw [h0, neg_zero])
    refine Or.inl ?_
    have key : (x1 - w.xmin) / -(x2 - x1) * (x2 - x1) = -(x1 - w.xmin) := by
      rw [div_neg, neg_mul, div_mul_cancel₀ _ hd]
    rw [key]; ring
  · refine Or.inr (Or.inl ?_)
    field_simp
  · have hd : y2 - y1 ≠ 0 := fun h0 => hne (by rw [h0, neg_zero])
    refine Or.inr (Or.inr (Or.inl ?_))
    have key : (y1 - w.ymin) / -(y2 - y1) * (y2 - y1) = -(y1 - w.ymin) := by
      rw [div_neg, neg_mul, div_mul_cancel₀ _ hd]
    rw [key]; ring
  · refine Or.inr (Or.inr (Or.inr ?_))
    field_simp

/-! ## Concrete runs -/

theorem bresenhamPixels_run_3_1 :
    bresenhamPixels 10 0 0 3 1 = some [⟨0, 0⟩, ⟨1, 0⟩, ⟨2, 1⟩, ⟨3, 1⟩] := by decide

theorem bresenhamPixels_run_steep :
    bresenhamPixels 10 2 5 1 2 = some [⟨2, 5⟩, ⟨2, 4⟩, ⟨1, 3⟩, ⟨1, 2⟩] := by decide

theorem drawSquareBrush_run_3 :
    drawSquareBrush 0 0 3 =
      [⟨-1, -1⟩, ⟨0, -1⟩, ⟨1, -1⟩, ⟨-1, 0⟩, ⟨0, 0⟩, ⟨1, 0⟩, ⟨-1, 1⟩, ⟨0, 1⟩, ⟨1, 1⟩] := by
  decide

theorem drawCircleBrush_run_1 :
    drawCircleBrush 0 0 1 = [⟨0, -1⟩, ⟨-1, 0⟩, ⟨0, 0⟩, ⟨1, 0⟩, ⟨0, 1⟩] := by decide

theorem drawCircleMidpoint_run_2_2 :
    drawCircleMidpoint 5 0 0 2 2 =
      some (plotCirclePoints 0 0 0 2 ++ plotCirclePoints 0 0 1 2 ++
        (plotCirclePoints 0 0 0 3 ++ plotCirclePoints 0 0 1 3 ++ plotCirclePoints 0 0 2 2)) := by
  decide

/-! # Claims -/

/-- C1: for all integer endpoints the point sequence of `bresenhamPixels` has
`(x1,y1)` as first and `(x2,y2)` as last element, and any two consecutive points
differ by at most one in each coordinate and by exactly one in at least one
(with any fuel from some bound on, the loop returns this same sequence). -/
theorem bresenhamPixels_endpoints_connected (x1 y1 x2 y2 : Int) :
    ∃ (fuel : Nat) (pts : List Pt),
      (∀ k, bresenhamPixels (fuel + k) x1 y1 x2 y2 = some pts) ∧
      pts.head? = some ⟨x1, y1⟩ ∧ pts.getLast? = some ⟨x2, y2⟩ ∧
      List.Chain' Step8 pts := by
  obtain ⟨pts, hrun, hlast, hchain, _⟩ := bresenhamPixels_run x1 y1 x2 y2
  exact ⟨_, _, hrun, rfl, hlast, hchain⟩

/-- C2: over rational arithmetic, whenever `liangBarskyClip` returns true, the
returned segment joins the points at `tE` and `tL`, `0 ≤ tE ≤ tL ≤ 1`, and a
point of the input segment at parameter `t ∈ [0,1]` lies in the closed rectangle
if and only if `tE ≤ t ≤ tL`, equivalently if and only if it is a point of the
returned segment. -/
theorem liangBarskyClip_exact (w : ClipRect) (x1 y1 x2 y2 : ℚ) (c : Line)
    (h : liangBarskyClip w x1 y1 x2 y2 = some c) :
    ∃ tE tL : ℚ, liangBarskyParams w x1 y1 x2 y2 = some (tE, tL) ∧
      0 ≤ tE ∧ tE ≤ tL ∧ tL ≤ 1 ∧
      c = ⟨x1 + tE * (x2 - x1), y1 + tE * (y2 - y1),
           x1 + tL * (x2 - x1), y1 + tL * (y2 - y1)⟩ ∧
      ∀ t : ℚ, 0 ≤ t → t ≤ 1 →
        (Inside w (x1 + t * (x2 - x1)) (y1 + t * (y2 - y1)) ↔ tE ≤ t ∧ t ≤ tL) ∧
        (Inside w (x1 + t * (x2 - x1)) (y1 + t * (y2 - y1)) ↔
          ∃ s : ℚ, 0 ≤ s ∧ s ≤ 1 ∧
            x1 + t * (x2 - x1) = c.x1 + s * (c.x2 - c.x1) ∧
            y1 + t * (y2 - y1) = c.y1 + s * (c.y2 - c.y1)) := by
  unfold liangBarskyClip at h
  cases hp : liangBarskyParams w x1 y1 x2 y2 with
  | none => rw [hp] at h; cases h
  | some u =>
    rw [hp] at h
    simp only [Option.map_some', Option.some.injEq] at h
    obtain ⟨h0, hle, h1, hiff⟩ := liangBarskyParams_some w x1 y1 x2 y2 u hp
    refine ⟨u.1, u.2, rfl, h0, hle, h1, h.symm, ?_⟩
    intro t ht0 ht1
    refine ⟨hiff t ht0 ht1, ?_⟩
    subst h
    simp only
    constructor
    · intro hin
      obtain ⟨ha, hb⟩ := (hiff t ht0 ht1).mp hin
      rcases eq_or_lt_of_le hle with heq | hlt
      · have ht : t = u.1 := le_antisymm (heq ▸ hb) ha
        exact ⟨0, le_rfl, zero_le_one, by rw [ht]; ring, by rw [ht]; ring⟩
      · have hpos : 0 < u.2 - u.1 := sub_pos.mpr hlt
        refine ⟨(t - u.1) / (u.2 - u.1), div_nonneg (by linarith) hpos.le,
          (div_le_one hpos).mpr (by linarith), ?_, ?_⟩
        · field_simp; ring
        · field_simp; ring
    · rintro ⟨s, hs0, hs1, hx, hy⟩
      have hmul : 0 ≤ s * (u.2 - u.1) := mul_nonneg hs0 (by linarith)
      have hmul' : s * (u.2 - u.1) ≤ u.2 - u.1 := by
        have := mul_le_mul_of_nonneg_right hs1 (show 0 ≤ u.2 - u.1 by linarith)
        linarith
      have hin := (hiff (u.1 + s * (u.2 - u.1)) (by linarith) (by linarith)).mpr
        ⟨by linarith, by linarith⟩
      have ex : x1 + t * (x2 - x1) = x1 + (u.1 + s * (u.2 - u.1)) * (x2 - x1) := by
        rw [hx]; ring
      have ey : y1 + t * (y2 - y1) = y1 + (u.1 + s * (u.2 - u.1)) * (y2 - y1) := by
        rw [hy]; ring
      rw [ex, ey]
      exact hin

theorem liangBarskyClip_exact_witness :
    liangBarskyClip ⟨0, 0, 10, 10⟩ (-5) 5 15 5 = some ⟨0, 5, 10, 5⟩ ∧
    ∃ tE tL : ℚ, liangBarskyParams ⟨0, 0, 10, 10⟩ (-5) 5 15 5 = some (tE, tL) ∧
      0 ≤ tE ∧ tE ≤ tL ∧ tL ≤ 1 ∧
      (⟨0, 5, 10, 5⟩ : Line) = ⟨-5 + tE * (15 - -5), 5 + tE * (5 - 5),
           -5 + tL * (15 - -5), 5 + tL * (5 - 5)⟩ ∧
      ∀ t : ℚ, 0 ≤ t → t ≤ 1 →
        (Inside ⟨0, 0, 10, 10⟩ (-5 + t * (15 - -5)) (5 + t * (5 - 5)) ↔ tE ≤ t ∧ t ≤ tL) ∧
        (Inside ⟨0, 0, 10, 10⟩ (-5 + t * (15 - -5)) (5 + t * (5 - 5)) ↔
          ∃ s : ℚ, 0 ≤ s ∧ s ≤ 1 ∧
            -5 + t * (15 - -5) = (⟨0, 5, 10, 5⟩ : Line).x1 +
              s * ((⟨0, 5, 10, 5⟩ : Line).x2 - (⟨0, 5, 10, 5⟩ : Line).x1) ∧
            5 + t * (5 - 5) = (⟨0, 5, 10, 5⟩ : Line).y1 +
              s * ((⟨0, 5, 10, 5⟩ : Line).y2 - (⟨0, 5, 10, 5⟩ : Line).y1)) :=
  ⟨by norm_num [liangBarskyClip, liangBarskyParams, clipEdge],
   liangBarskyClip_exact ⟨0, 0, 10, 10⟩ (-5) 5 15 5 ⟨0, 5, 10, 5⟩
     (by norm_num [liangBarskyClip, liangBarskyParams, clipEdge])⟩

/-- C3: over rational arithmetic, `liangBarskyClip` returns false exactly when
no point of the segment lies in the closed rectangle; for the rectangle
`(0,0,10,10)` the segments `(20,0)-(20,10)` and `(20,20)-(30,30)` return false. -/
theorem liangBarskyClip_none_iff_disjoint :
    (∀ (w : ClipRect) (x1 y1 x2 y2 : ℚ),
      liangBarskyClip w x1 y1 x2 y2 = none ↔
        ¬ ∃ t : ℚ, 0 ≤ t ∧ t ≤ 1 ∧ Inside w (x1 + t * (x2 - x1)) (y1 + t * (y2 - y1))) ∧
    liangBarskyClip ⟨0, 0, 10, 10⟩ 20 0 20 10 = none ∧
    liangBarskyClip ⟨0, 0, 10, 10⟩ 20 20 30 30 = none := by
  refine ⟨?_, by norm_num [liangBarskyClip, liangBarskyParams, clipEdge],
    by norm_num [liangBarskyClip, liangBarskyParams, clipEdge]⟩
  intro w x1 y1 x2 y2
  unfold liangBarskyClip
  cases hp : liangBarskyParams w x1 y1 x2 y2 with
  | none =>
    simp only [Option.map_none', true_iff]
    rintro ⟨t, ht0, ht1, hin⟩
    exact liangBarskyParams_none w x1 y1 x2 y2 hp t ht0 ht1 hin
  | some u =>
    obtain ⟨h0, hle, h1, hiff⟩ := liangBarskyParams_some w x1 y1 x2 y2 u hp
    refine iff_of_false (by simp) (not_not.mpr ?_)
    exact ⟨u.1, h0, le_trans hle h1, (hiff u.1 h0 (le_trans hle h1)).mpr ⟨le_rfl, hle⟩⟩

/-- C4: for every centre, radius `R > 0` and thickness `T`, `drawCircleMidpoint`
runs `T` passes, and every point `(xc+dx, yc+dy)` plotted in pass `t`
(`0 ≤ t < T`, radius `R + t`) satisfies `|dx² + dy² - (R+t)²| ≤ R + t`. -/
theorem drawCircleMidpoint_on_circle (xc yc R T : Int) (_hR : 0 < R) :
    ∃ (fuel : Nat) (passes : List (List Pt)),
      (∀ k, drawCircleMidpointPasses (fuel + k) xc yc R T = some passes) ∧
      (∀ k, drawCircleMidpoint (fuel + k) xc yc R T = some passes.flatten) ∧
      passes.length = T.toNat ∧
      ∀ (t : Nat) (pass : List Pt), passes[t]? = some pass →
        ∀ p ∈ pass, |(p.x - xc) ^ 2 + (p.y - yc) ^ 2 - (R + t) ^ 2| ≤ R + t := by
  obtain ⟨passes, hp⟩ := drawCircleMidpointPasses_total xc yc R T
  have hf := midpointPasses_forall₂ xc yc R _ _ passes (hp 0)
  refine ⟨(R + T).toNat + 1, passes, hp, ?_, ?_, ?_⟩
  · intro k
    unfold drawCircleMidpoint
    rw [hp k]; rfl
  · rw [← hf.length_eq, List.length_range]
  · intro t pass ht p hmem
    obtain ⟨a, ha, hloop⟩ := forall₂_getElem? hf t pass ht
    have hat : a = t := by
      have hlt : t < (List.range T.toNat).length := by
        by_contra hcon
        rw [List.getElem?_eq_none (not_lt.mp hcon)] at ha
        cases ha
      rw [List.getElem?_eq_getElem hlt, List.getElem_range] at ha
      exact (Option.some.inj ha).symm
    subst hat
    exact midpointLoop_bound xc yc (R + a) _ _ _ _ pass hloop (midpointInv_init _) p hmem

theorem drawCircleMidpoint_on_circle_witness :
    (0 : Int) < 2 ∧
    ∃ (fuel : Nat) (passes : List (List Pt)),
      (∀ k, drawCircleMidpointPasses (fuel + k) 0 0 2 2 = some passes) ∧
      (∀ k, drawCircleMidpoint (fuel + k) 0 0 2 2 = some passes.flatten) ∧
      passes.length = (2 : Int).toNat ∧
      ∀ (t : Nat) (pass : List Pt), passes[t]? = some pass →
        ∀ p ∈ pass, |(p.x - 0) ^ 2 + (p.y - 0) ^ 2 - ((2 : Int) + (t : Int)) ^ 2| ≤ (2 : Int) + (t : Int) :=
  ⟨by decide, drawCircleMidpoint_on_circle 0 0 2 2 (by decide)⟩

/-- C5: for all integer endpoints the `while(true)` loop of `bresenhamPixels`
terminates: `|x2-x1| + |y2-y1| + 1` iterations are enough, more fuel does not
change the result, and the produced sequence has at most that many points. -/
theorem bresenhamPixels_terminates (x1 y1 x2 y2 : Int) :
    ∃ pts : List Pt,
      (∀ k, bresenhamPixels ((|x2 - x1| + |y2 - y1|).toNat + 1 + k) x1 y1 x2 y2 = some pts) ∧
      (pts.length : Int) ≤ |x2 - x1| + |y2 - y1| + 1 := by
  obtain ⟨pts, hrun, _, _, hlen⟩ := bresenhamPixels_run x1 y1 x2 y2
  refine ⟨_, hrun, ?_⟩
  simp only [List.length_cons, Nat.cast_add, Nat.cast_one]
  omega

/-- C6: for every centre, radius and thickness, the offsets from the centre of
the points plotted by `drawCircleMidpoint` are closed under `(dx,dy) ↦ (-dx,dy)`,
`(dx,dy) ↦ (dx,-dy)`, `(dx,dy) ↦ (-dx,-dy)` and the swap `(dx,dy) ↦ (dy,dx)`. -/
theorem drawCircleMidpoint_symmetric (xc yc R T : Int) :
    ∃ (fuel : Nat) (pts : List Pt),
      (∀ k, drawCircleMidpoint (fuel + k) xc yc R T = some pts) ∧
      ∀ dx dy : Int, (⟨xc + dx, yc + dy⟩ : Pt) ∈ pts →
        (⟨xc - dx, yc + dy⟩ : Pt) ∈ pts ∧ (⟨xc + dx, yc - dy⟩ : Pt) ∈ pts ∧
        (⟨xc - dx, yc - dy⟩ : Pt) ∈ pts ∧ (⟨xc + dy, yc + dx⟩ : Pt) ∈ pts := by
  obtain ⟨passes, hp⟩ := drawCircleMidpointPasses_total xc yc R T
  have hf := midpointPasses_forall₂ xc yc R _ _ passes (hp 0)
  refine ⟨(R + T).toNat + 1, passes.flatten, ?_, ?_⟩
  · intro k
    unfold drawCircleMidpoint
    rw [hp k]; rfl
  · intro dx dy hmem
    obtain ⟨pass, hpass, hin⟩ := List.mem_flatten.mp hmem
    obtain ⟨t, ht⟩ := List.mem_iff_getElem?.mp hpass
    obtain ⟨a, _, hloop⟩ := forall₂_getElem? hf t pass ht
    obtain ⟨u, v, huv, hall⟩ := midpointLoop_groups xc yc _ _ _ _ pass hloop _ hin
    obtain ⟨c1, c2, c3, c4⟩ := plotCirclePoints_closed xc yc u v dx dy huv
    exact ⟨List.mem_flatten.mpr ⟨pass, hpass, hall _ c1⟩,
      List.mem_flatten.mpr ⟨pass, hpass, hall _ c2⟩,
      List.mem_flatten.mpr ⟨pass, hpass, hall _ c3⟩,
      List.mem_flatten.mpr ⟨pass, hpass, hall _ c4⟩⟩

/-- C7: for every centre and every thickness `W ≥ 1`, `drawSquareBrush` plots
exactly `(2*floor(W/2)+1)²` points, pairwise distinct, each within Chebyshev
distance `floor(W/2)` of the centre. -/
theorem drawSquareBrush_count_chebyshev (cx cy W : Int) (hW : 1 ≤ W) :
    ((drawSquareBrush cx cy W).length : Int) = (2 * (W / 2) + 1) ^ 2 ∧
    (drawSquareBrush cx cy W).Nodup ∧
    ∀ p ∈ drawSquareBrush cx cy W, max |p.x - cx| |p.y - cy| ≤ W / 2 := by
  have hdiv : Int.tdiv W 2 = W / 2 := Int.tdiv_eq_ediv (by omega) (by decide)
  have hh : 0 ≤ W / 2 := by omega
  refine ⟨?_, nodup_drawSquareBrush cx cy W, ?_⟩
  · rw [length_drawSquareBrush, hdiv]
    push_cast
    rw [Int.toNat_of_nonneg (by omega)]
    ring
  · intro p hp
    obtain ⟨dy, dx, hdy, hdx, rfl⟩ := (mem_drawSquareBrush cx cy W p).mp hp
    rw [hdiv] at hdy hdx
    simp only [add_sub_cancel_left]
    exact max_le (abs_le.mpr hdx) (abs_le.mpr hdy)

theorem drawSquareBrush_count_chebyshev_witness :
    (1 : Int) ≤ 3 ∧
    (((drawSquareBrush 0 0 3).length : Int) = (2 * (3 / 2) + 1) ^ 2 ∧
    (drawSquareBrush 0 0 3).Nodup ∧
    ∀ p ∈ drawSquareBrush 0 0 3, max |p.x - 0| |p.y - 0| ≤ 3 / 2) :=
  ⟨by decide, drawSquareBrush_count_chebyshev 0 0 3 (by decide)⟩

/-- C8: with the exact integer square root, for every centre and every radius
`r ≥ 0` each point plotted by `drawCircleBrush` has offset `(dx,dy)` with
`dx² + dy² ≤ r²`, hence at distance at most `r + 1/2` from the centre, and the
plotted offsets are closed under `(dx,dy) ↦ (-dx,dy)` and `(dx,dy) ↦ (dx,-dy)`. -/
theorem drawCircleBrush_in_disk_symmetric (cx cy r : Int) (hr : 0 ≤ r) :
    (∀ p ∈ drawCircleBrush cx cy r,
      (p.x - cx) ^ 2 + (p.y - cy) ^ 2 ≤ r ^ 2 ∧
      4 * ((p.x - cx) ^ 2 + (p.y - cy) ^ 2) ≤ (2 * r + 1) ^ 2) ∧
    (∀ dx dy : Int, (⟨cx + dx, cy + dy⟩ : Pt) ∈ drawCircleBrush cx cy r →
      (⟨cx - dx, cy + dy⟩ : Pt) ∈ drawCircleBrush cx cy r ∧
      (⟨cx + dx, cy - dy⟩ : Pt) ∈ drawCircleBrush cx cy r) := by
  constructor
  · intro p hp
    obtain ⟨dy, dx, hdy, hdx, rfl⟩ := (mem_drawCircleBrush cx cy r p).mp hp
    have := row_in_disk r dy dx hdy hdx
    simp only [add_sub_cancel_left]
    constructor
    · nlinarith
    · nlinarith
  · intro dx dy hmem
    obtain ⟨ey, ex, hey, hex, heq⟩ := (mem_drawCircleBrush cx cy r _).mp hmem
    simp only [Pt.mk.injEq] at heq
    have hx : ex = dx := by omega
    have hy : ey = dy := by omega
    subst hx; subst hy
    constructor
    · exact (mem_drawCircleBrush cx cy r _).mpr
        ⟨ey, -ex, hey, ⟨by omega, by omega⟩, by simp [sub_eq_add_neg]⟩
    · refine (mem_drawCircleBrush cx cy r _).mpr
        ⟨-ey, ex, ⟨by omega, by omega⟩, ?_, by simp [sub_eq_add_neg]⟩
      rw [neg_mul_neg]
      exact hex

theorem drawCircleBrush_in_disk_symmetric_witness :
    (0 : Int) ≤ 2 ∧
    ((∀ p ∈ drawCircleBrush 0 0 2,
      (p.x - 0) ^ 2 + (p.y - 0) ^ 2 ≤ (2 : Int) ^ 2 ∧
      4 * ((p.x - 0) ^ 2 + (p.y - 0) ^ 2) ≤ (2 * 2 + 1 : Int) ^ 2) ∧
    (∀ dx dy : Int, (⟨0 + dx, 0 + dy⟩ : Pt) ∈ drawCircleBrush 0 0 2 →
      (⟨0 - dx, 0 + dy⟩ : Pt) ∈ drawCircleBrush 0 0 2 ∧
      (⟨0 + dx, 0 - dy⟩ : Pt) ∈ drawCircleBrush 0 0 2)) :=
  ⟨by decide, drawCircleBrush_in_disk_symmetric 0 0 2 (by decide)⟩

/-- C9: over rational arithmetic, a segment whose two endpoints lie in the
closed clip rectangle is returned unchanged: `liangBarskyClip` returns true with
`tE = 0`, `tL = 1` and `(cx1,cy1,cx2,cy2) = (x1,y1,x2,y2)`. -/
theorem liangBarskyClip_inside_unchanged (w : ClipRect) (x1 y1 x2 y2 : ℚ)
    (h1 : Inside w x1 y1) (h2 : Inside w x2 y2) :
    liangBarskyParams w x1 y1 x2 y2 = some (0, 1) ∧
    liangBarskyClip w x1 y1 x2 y2 = some ⟨x1, y1, x2, y2⟩ := by
  obtain ⟨a1, a2, a3, a4⟩ := h1
  obtain ⟨b1, b2, b3, b4⟩ := h2
  have hp : liangBarskyParams w x1 y1 x2 y2 = some (0, 1) := by
    unfold liangBarskyParams
    simp only [List.zip_cons_cons, List.zip_nil_right, List.foldlM_cons, List.foldlM_nil]
    rw [clipEdge_keep _ _ (by linarith) (by linarith)]
    simp only [Option.bind_eq_bind, Option.some_bind]
    rw [clipEdge_keep _ _ (by linarith) (by linarith)]
    simp only [Option.some_bind]
    rw [clipEdge_keep _ _ (by linarith) (by linarith)]
    simp only [Option.some_bind]
    rw [clipEdge_keep _ _ (by linarith) (by linarith)]
    simp
  refine ⟨hp, ?_⟩
  unfold liangBarskyClip
  rw [hp]
  simp

theorem liangBarskyClip_inside_unchanged_witness :
    Inside ⟨0, 0, 10, 10⟩ 1 2 ∧ Inside ⟨0, 0, 10, 10⟩ 10 7 ∧
    liangBarskyParams ⟨0, 0, 10, 10⟩ 1 2 10 7 = some (0, 1) ∧
    liangBarskyClip ⟨0, 0, 10, 10⟩ 1 2 10 7 = some ⟨1, 2, 10, 7⟩ :=
  ⟨by norm_num [Inside], by norm_num [Inside],
   liangBarskyClip_inside_unchanged ⟨0, 0, 10, 10⟩ 1 2 10 7
     (by norm_num [Inside]) (by norm_num [Inside])⟩

/-- C10: over rational arithmetic, whenever `liangBarskyClip` returns true, a
returned endpoint that was clipped (`tE > 0`, or it differs from the input
start; `tL < 1`, or it differs from the input end) has a coordinate equal to
`xmin`, `xmax`, `ymin` or `ymax`; the rectangle `(0,0,10,10)` clips the segment
`(-5,5)-(15,5)` to `(0,5)-(10,5)`. -/
theorem liangBarskyClip_clipped_on_edge :
    (∀ (w : ClipRect) (x1 y1 x2 y2 : ℚ) (c : Line),
      liangBarskyClip w x1 y1 x2 y2 = some c →
      ∃ tE tL : ℚ, liangBarskyParams w x1 y1 x2 y2 = some (tE, tL) ∧
        ((0 < tE ∨ c.x1 ≠ x1 ∨ c.y1 ≠ y1) → OnEdge w c.x1 c.y1 ∧ Inside w c.x1 c.y1) ∧
        ((tL < 1 ∨ c.x2 ≠ x2 ∨ c.y2 ≠ y2) → OnEdge w c.x2 c.y2 ∧ Inside w c.x2 c.y2)) ∧
    liangBarskyClip ⟨0, 0, 10, 10⟩ (-5) 5 15 5 = some ⟨0, 5, 10, 5⟩ := by
  refine ⟨?_, by norm_num [liangBarskyClip, liangBarskyParams, clipEdge]⟩
  intro w x1 y1 x2 y2 c h
  unfold liangBarskyClip at h
  cases hp : liangBarskyParams w x1 y1 x2 y2 with
  | none => rw [hp] at h; cases h
  | some u =>
    rw [hp] at h
    simp only [Option.map_some', Option.some.injEq] at h
    subst h
    obtain ⟨o1, o2⟩ := clipFold_origin _ _ _ (liangBarskyParams_fold w x1 y1 x2 y2 u hp)
    obtain ⟨h0, hle, h1, hiff⟩ := liangBarskyParams_some w x1 y1 x2 y2 u hp
    have hin1 := (hiff u.1 h0 (le_trans hle h1)).mpr ⟨le_rfl, hle⟩
    have hin2 := (hiff u.2 (le_trans h0 hle) h1).mpr ⟨hle, le_rfl⟩
    refine ⟨u.1, u.2, rfl, ?_, ?_⟩
    · intro hclip
      have hne : u.1 ≠ 0 := by
        intro h0
        rcases hclip with hc | hc | hc
        · exact absurd h0 (ne_of_gt hc)
        · exact hc (by simp [h0])
        · exact hc (by simp [h0])
      rcases o1 with o1 | ⟨pq, hmem, hlt, heq⟩
      · exact absurd o1 hne
      · exact ⟨quotient_on_edge w x1 y1 x2 y2 u.1 pq hmem (ne_of_lt hlt) heq, hin1⟩
    · intro hclip
      have hne : u.2 ≠ 1 := by
        intro h1
        rcases hclip with hc | hc | hc
        · exact absurd h1 (ne_of_lt hc)
        · exact hc (by simp [h1])
        · exact hc (by simp [h1])
      rcases o2 with o2 | ⟨pq, hmem, hgt, heq⟩
      · exact absurd o2 hne
      · exact ⟨quotient_on_edge w x1 y1 x2 y2 u.2 pq hmem (ne_of_gt hgt) heq, hin2⟩

theorem liangBarskyClip_clipped_on_edge_witness :
    liangBarskyClip ⟨0, 0, 10, 10⟩ (-5) 5 5 5 = some ⟨0, 5, 5, 5⟩ ∧
    ∃ tE tL : ℚ, liangBarskyParams ⟨0, 0, 10, 10⟩ (-5) 5 5 5 = some (tE, tL) ∧
      ((0 < tE ∨ (⟨0, 5, 5, 5⟩ : Line).x1 ≠ -5 ∨ (⟨0, 5, 5, 5⟩ : Line).y1 ≠ 5) →
        OnEdge ⟨0, 0, 10, 10⟩ (⟨0, 5, 5, 5⟩ : Line).x1 (⟨0, 5, 5, 5⟩ : Line).y1 ∧
        Inside ⟨0, 0, 10, 10⟩ (⟨0, 5, 5, 5⟩ : Line).x1 (⟨0, 5, 5, 5⟩ : Line).y1) ∧
      ((tL < 1 ∨ (⟨0, 5, 5, 5⟩ : Line).x2 ≠ 5 ∨ (⟨0, 5, 5, 5⟩ : Line).y2 ≠ 5) →
        OnEdge ⟨0, 0, 10, 10⟩ (⟨0, 5, 5, 5⟩ : Line).x2 (⟨0, 5, 5, 5⟩ : Line).y2 ∧
        Inside ⟨0, 0, 10, 10⟩ (⟨0, 5, 5, 5⟩ : Line).x2 (⟨0, 5, 5, 5⟩ : Line).y2) :=
  ⟨by norm_num [liangBarskyClip, liangBarskyParams, clipEdge],
   liangBarskyClip_clipped_on_edge.1 ⟨0, 0, 10, 10⟩ (-5) 5 5 5 ⟨0, 5, 5, 5⟩
     (by norm_num [liangBarskyClip, liangBarskyParams, clipEdge])⟩

/-! ## Event handlers: lemmas -/

theorem ClipDemo.step_valid (s s1 : ClipDemo) (e : ClipDemo.Event)
    (hne : e ≠ ClipDemo.Event.keyboard '[') (hv : s.win.Valid) (h : s.step e = some s1) :
    s1.win.Valid := by
  obtain ⟨hx, hy⟩ := hv
  cases e with
  | mouse button state x y =>
    simp only [ClipDemo.step, Option.some.injEq] at h
    subst h
    unfold ClipDemo.mouse
    split_ifs <;> exact ⟨hx, hy⟩
  | keyboard key =>
    have hk : key ≠ '[' := fun hk => hne (by rw [hk])
    simp only [ClipDemo.step, ClipDemo.keyboard, if_neg hk] at h
    split_ifs at h <;> simp only [Option.some.injEq] at h <;> subst h
    · exact ⟨hx, hy⟩
    · constructor <;> norm_num
    · constructor <;> simp only [ClipDemo.winResizeStep] <;> linarith
    · exact ⟨hx, hy⟩
  | specialKeys key =>
    simp only [ClipDemo.step, Option.some.injEq] at h
    subst h
    cases key <;> simp only [ClipDemo.specialKeys, ClipDemo.winMoveStep] <;>
      constructor <;> first | linarith | (simp only; linarith)

theorem ClipDemo.run_valid :
    ∀ (evs : List ClipDemo.Event) (s : ClipDemo), s.win.Valid →
      (∀ e ∈ evs, e ≠ ClipDemo.Event.keyboard '[') → (s.run evs).win.Valid := by
  intro evs
  induction evs with
  | nil => intro s hv _; exact hv
  | cons e es ih =>
    intro s hv hall
    unfold ClipDemo.run
    cases hstep : s.step e with
    | none => exact hv
    | some s1 =>
      exact ih s1 (ClipDemo.step_valid s s1 e (hall e (List.mem_cons_self _ _)) hv hstep)
        (fun e1 he1 => hall e1 (List.mem_cons_of_mem _ he1))

theorem LineDemo.step_width (s : LineDemo) (e : LineDemo.Event)
    (h : (1 ≤ s.lineWidth ∧ s.lineWidth ≤ 100) ∧ ∀ w ∈ s.drawnWidths, 1 ≤ w ∧ w ≤ 100) :
    (1 ≤ (s.step e).lineWidth ∧ (s.step e).lineWidth ≤ 100) ∧
      ∀ w ∈ (s.step e).drawnWidths, 1 ≤ w ∧ w ≤ 100 := by
  obtain ⟨hw, hall⟩ := h
  cases e with
  | mouse button state x y =>
    simp only [LineDemo.step, LineDemo.mouse]
    have happ : ∀ w ∈ s.drawnWidths ++ [s.lineWidth], 1 ≤ w ∧ w ≤ 100 := by
      intro w hmem
      rcases List.mem_append.mp hmem with hmem | hmem
      · exact hall w hmem
      · rw [List.mem_singleton.mp hmem]; exact hw
    split_ifs <;> first | exact ⟨hw, hall⟩ | exact ⟨hw, happ⟩
  | motion x y =>
    simp only [LineDemo.step, LineDemo.motion]
    split_ifs <;> exact ⟨hw, hall⟩
  | keyboard key =>
    simp only [LineDemo.step, LineDemo.keyboard]
    split_ifs
    · exact ⟨⟨le_min (by norm_num) (by linarith [hw.1]), min_le_left _ _⟩, hall⟩
    · exact ⟨⟨le_max_left _ _, max_le (by norm_num) (by linarith [hw.2])⟩, hall⟩
    · exact ⟨hw, hall⟩
    · exact ⟨hw, by simp⟩
    · exact ⟨hw, hall⟩
  | reshape w h => exact ⟨hw, hall⟩

theorem LineDemo.run_width :
    ∀ (evs : List LineDemo.Event) (s : LineDemo),
      ((1 ≤ s.lineWidth ∧ s.lineWidth ≤ 100) ∧ ∀ w ∈ s.drawnWidths, 1 ≤ w ∧ w ≤ 100) →
      (1 ≤ (s.run evs).lineWidth ∧ (s.run evs).lineWidth ≤ 100) ∧
        ∀ w ∈ (s.run evs).drawnWidths, 1 ≤ w ∧ w ≤ 100 := by
  intro evs
  induction evs with
  | nil => intro s h; exact h
  | cons e es ih =>
    intro s h
    exact ih (s.step e) (LineDemo.step_width s e h)

theorem CircleDemo.step_count (s s1 : CircleDemo) (e : CircleDemo.Event)
    (h : 1 ≤ s.numCircles ∧ s.numCircles ≤ 100) (hstep : s.step e = some s1) :
    1 ≤ s1.numCircles ∧ s1.numCircles ≤ 100 := by
  cases e with
  | keyboard key =>
    simp only [CircleDemo.step, CircleDemo.keyboard] at hstep
    split_ifs at hstep <;> simp only [Option.some.injEq] at hstep <;> subst hstep
    · exact ⟨le_min (by norm_num) (by linarith [h.1]), min_le_left _ _⟩
    · exact ⟨le_max_left _ _, max_le (by norm_num) (by linarith [h.2])⟩
    · exact h
    · constructor <;> norm_num
    · exact h
  | reshape w h1 =>
    simp only [CircleDemo.step, Option.some.injEq] at hstep
    subst hstep
    exact h

theorem CircleDemo.run_count :
    ∀ (evs : List CircleDemo.Event) (s : CircleDemo),
      (1 ≤ s.numCircles ∧ s.numCircles ≤ 100) →
      1 ≤ (s.run evs).numCircles ∧ (s.run evs).numCircles ≤ 100 := by
  intro evs
  induction evs with
  | nil => intro s h; exact h
  | cons e es ih =>
    intro s h
    unfold CircleDemo.run
    cases hstep : s.step e with
    | none => exact h
    | some s1 => exact ih s1 (CircleDemo.step_count s s1 e h hstep)

/-- The clip window after `n` presses of the shrink key `[`. -/
theorem ClipDemo.run_shrinks :
    ∀ (n : Nat) (s : ClipDemo),
      (s.run (List.replicate n (ClipDemo.Event.keyboard '['))).win =
        ⟨s.win.xmin + 10 * n, s.win.ymin + 10 * n, s.win.xmax - 10 * n, s.win.ymax - 10 * n⟩ := by
  intro n
  induction n with
  | zero => intro s; simp [ClipDemo.run]
  | succ n ih =>
    intro s
    have hk : s.step (ClipDemo.Event.keyboard '[') =
        some { s with win := ⟨s.win.xmin + 10, s.win.ymin + 10, s.win.xmax - 10,
          s.win.ymax - 10⟩ } := by
      simp [ClipDemo.step, ClipDemo.keyboard, ClipDemo.winResizeStep]
    rw [List.replicate_succ, ClipDemo.run, hk]
    simp only
    rw [ih]
    simp only [ClipRect.mk.injEq]
    push_cast
    refine ⟨by ring, by ring, by ring, by ring⟩

/-- One event moves each bound of an integer clip window by at most `10`, or
resets it to the default bounds. -/
theorem ClipDemo.step_intWithin (s s1 : ClipDemo) (e : ClipDemo.Event) (M : Int)
    (hM : 600 ≤ M) (hw : s.win.IntWithin M) (h : s.step e = some s1) :
    s1.win.IntWithin (M + 10) := by
  obtain ⟨a, b, c, d, hwin, ha, hb, hc, hd⟩ := hw
  have hsame : s.win.IntWithin (M + 10) :=
    ⟨a, b, c, d, hwin, ⟨by omega, by omega⟩, ⟨by omega, by omega⟩, ⟨by omega, by omega⟩,
      ⟨by omega, by omega⟩⟩
  cases e with
  | mouse button state x y =>
    simp only [ClipDemo.step, Option.some.injEq] at h
    subst h
    unfold ClipDemo.mouse
    split_ifs <;> exact hsame
  | keyboard key =>
    simp only [ClipDemo.step, ClipDemo.keyboard] at h
    split_ifs at h <;> simp only [Option.some.injEq] at h <;> subst h
    · exact hsame
    · exact ⟨200, 150, 600, 450, by norm_num, ⟨by omega, by omega⟩, ⟨by omega, by omega⟩,
        ⟨by omega, by omega⟩, ⟨by omega, by omega⟩⟩
    · refine ⟨a + 10, b + 10, c - 10, d - 10, ?_, ⟨by omega, by omega⟩, ⟨by omega, by omega⟩,
        ⟨by omega, by omega⟩, ⟨by omega, by omega⟩⟩
      simp only [hwin, ClipDemo.winResizeStep]
      push_cast
      rfl
    · refine ⟨a - 10, b - 10, c + 10, d + 10, ?_, ⟨by omega, by omega⟩, ⟨by omega, by omega⟩,
        ⟨by omega, by omega⟩, ⟨by omega, by omega⟩⟩
      simp only [hwin, ClipDemo.winResizeStep]
      push_cast
      rfl
    · exact hsame
  | specialKeys key =>
    simp only [ClipDemo.step, Option.some.injEq] at h
    subst h
    cases key
    · refine ⟨a, b + 10, c, d + 10, ?_, ⟨by omega, by omega⟩, ⟨by omega, by omega⟩,
        ⟨by omega, by omega⟩, ⟨by omega, by omega⟩⟩
      simp only [ClipDemo.specialKeys, hwin, ClipDemo.winMoveStep]
      push_cast
      rfl
    · refine ⟨a, b - 10, c, d - 10, ?_, ⟨by omega, by omega⟩, ⟨by omega, by omega⟩,
        ⟨by omega, by omega⟩, ⟨by omega, by omega⟩⟩
      simp only [ClipDemo.specialKeys, hwin, ClipDemo.winMoveStep]
      push_cast
      rfl
    · refine ⟨a - 10, b, c - 10, d, ?_, ⟨by omega, by omega⟩, ⟨by omega, by omega⟩,
        ⟨by omega, by omega⟩, ⟨by omega, by omega⟩⟩
      simp only [ClipDemo.specialKeys, hwin, ClipDemo.winMoveStep]
      push_cast
      rfl
    · refine ⟨a + 10, b, c + 10, d, ?_, ⟨by omega, by omega⟩, ⟨by omega, by omega⟩,
        ⟨by omega, by omega⟩, ⟨by omega, by omega⟩⟩
      simp only [ClipDemo.specialKeys, hwin, ClipDemo.winMoveStep]
      push_cast
      rfl
    · exact hsame

theorem ClipDemo.run_intWithin :
    ∀ (evs : List ClipDemo.Event) (s : ClipDemo) (M : Int), 600 ≤ M → s.win.IntWithin M →
      (s.run evs).win.IntWithin (M + 10 * (evs.length : Int)) := by
  intro evs
  induction evs with
  | nil =>
    intro s M _ hw
    simpa [ClipDemo.run] using hw
  | cons e es ih =>
    intro s M hM hw
    have hlen : M + 10 * ((e :: es).length : Int) = (M + 10) + 10 * (es.length : Int) := by
      rw [List.length_cons]
      push_cast
      ring
    unfold ClipDemo.run
    cases hstep : s.step e with
    | none =>
      obtain ⟨a, b, c, d, hwin, ha, hb, hc, hd⟩ := hw
      have hnn : (0 : Int) ≤ ((e :: es).length : Int) := Int.natCast_nonneg _
      exact ⟨a, b, c, d, hwin, ⟨by omega, by omega⟩, ⟨by omega, by omega⟩,
        ⟨by omega, by omega⟩, ⟨by omega, by omega⟩⟩
    | some s1 =>
      simp only
      rw [hlen]
      exact ih s1 (M + 10) (by omega) (ClipDemo.step_intWithin s s1 e M hM hw hstep)

/-- Mouse motion with a pending first point changes `p2` only. -/
theorem LineDemo.motions_pending :
    ∀ (ms : List (Int × Int)) (s : LineDemo), s.p1set = true →
      ∃ q : Pt, ms.foldl (fun t m => t.motion m.1 m.2) s = { s with p2 := q } := by
  intro ms
  induction ms with
  | nil => intro s _; exact ⟨s.p2, rfl⟩
  | cons m ms ih =>
    intro s hs
    obtain ⟨q, hq⟩ := ih (s.motion m.1 m.2) (by simp [LineDemo.motion, hs])
    refine ⟨q, ?_⟩
    rw [List.foldl_cons, hq]
    simp [LineDemo.motion, hs]

/-- C11 (amended): over exact (rational) arithmetic in place of the program's
floats, in the clipping demo, from the default rectangle and from every
rectangle with `xmin < xmax` and `ymin < ymax`, every finite sequence of events
without the shrink key `[` (arrow keys, `]`, reset, clear, clicks) leaves
`xmin < xmax` and `ymin < ymax`; the shrink key `[` leaves it exactly when
`xmax - xmin > 20` and `ymax - ymin > 20` before the key; and after any `n`
events from the default rectangle the four bounds are integers of absolute
value at most `600 + 10 n`. -/
theorem clipDemo_window_valid :
    ClipDemo.init.win.Valid ∧
    (∀ (s : ClipDemo) (evs : List ClipDemo.Event), s.win.Valid →
      (∀ e ∈ evs, e ≠ ClipDemo.Event.keyboard '[') → (s.run evs).win.Valid) ∧
    (∀ s : ClipDemo, ∃ s1, s.keyboard '[' = some s1 ∧
      (s1.win.Valid ↔ 20 < s.win.xmax - s.win.xmin ∧ 20 < s.win.ymax - s.win.ymin)) ∧
    (∀ evs : List ClipDemo.Event,
      (ClipDemo.init.run evs).win.IntWithin (600 + 10 * (evs.length : Int))) := by
  refine ⟨by constructor <;> norm_num [ClipDemo.init], ?_, ?_, ?_⟩
  rotate_left 2
  · intro evs
    refine ClipDemo.run_intWithin evs ClipDemo.init 600 le_rfl ?_
    exact ⟨200, 150, 600, 450, by norm_num [ClipDemo.init], ⟨by omega, by omega⟩,
      ⟨by omega, by omega⟩, ⟨by omega, by omega⟩, ⟨by omega, by omega⟩⟩
  · intro s evs hv hall
    exact ClipDemo.run_valid evs s hv hall
  · intro s
    refine ⟨{ s with win := ⟨s.win.xmin + ClipDemo.winResizeStep,
      s.win.ymin + ClipDemo.winResizeStep, s.win.xmax - ClipDemo.winResizeStep,
      s.win.ymax - ClipDemo.winResizeStep⟩ }, by simp [ClipDemo.keyboard], ?_⟩
    simp only [ClipRect.Valid, ClipDemo.winResizeStep]
    constructor
    · rintro ⟨h1, h2⟩; exact ⟨by linarith, by linarith⟩
    · rintro ⟨h1, h2⟩; exact ⟨by linarith, by linarith⟩

theorem clipDemo_window_valid_witness :
    ClipDemo.init.win.Valid ∧
    (∀ e ∈ [ClipDemo.Event.specialKeys SpecialKey.up, ClipDemo.Event.keyboard ']',
        ClipDemo.Event.keyboard 'r'], e ≠ ClipDemo.Event.keyboard '[') ∧
    (ClipDemo.init.run [ClipDemo.Event.specialKeys SpecialKey.up,
      ClipDemo.Event.keyboard ']', ClipDemo.Event.keyboard 'r']).win.Valid :=
  ⟨clipDemo_window_valid.1, by decide,
   clipDemo_window_valid.2.1 ClipDemo.init _ clipDemo_window_valid.1 (by decide)⟩

/-- C11 as stated fails: fifteen presses of the shrink key `[` from the default
rectangle `(200,150,600,450)` leave `ymin = ymax = 300`. -/
theorem clipDemo_shrink_degenerate :
    (ClipDemo.init.run (List.replicate 15 (ClipDemo.Event.keyboard '['))).win.ymin = 300 ∧
    (ClipDemo.init.run (List.replicate 15 (ClipDemo.Event.keyboard '['))).win.ymax = 300 ∧
    ¬ (ClipDemo.init.run (List.replicate 15 (ClipDemo.Event.keyboard '['))).win.Valid := by
  rw [ClipDemo.run_shrinks]
  norm_num [ClipDemo.init, ClipRect.Valid]

/-- C12: from the initial state, after every finite sequence of events, the
line demo has `1 ≤ lineWidth ≤ 100` and every stored width is in `[1,100]`, and
the circle demo has `1 ≤ numCircles ≤ 100`; `+` (or `=`) at 100 and `-` at 1
leave the state unchanged. -/
theorem counters_clamped :
    (∀ evs : List LineDemo.Event,
      (1 ≤ (LineDemo.init.run evs).lineWidth ∧ (LineDemo.init.run evs).lineWidth ≤ 100) ∧
      ∀ w ∈ (LineDemo.init.run evs).drawnWidths, 1 ≤ w ∧ w ≤ 100) ∧
    (∀ evs : List CircleDemo.Event,
      1 ≤ (CircleDemo.init.run evs).numCircles ∧ (CircleDemo.init.run evs).numCircles ≤ 100) ∧
    (∀ s : LineDemo,
      (s.lineWidth = 100 → s.keyboard '+' = s ∧ s.keyboard '=' = s) ∧
      (s.lineWidth = 1 → s.keyboard '-' = s)) ∧
    (∀ s : CircleDemo,
      (s.numCircles = 100 → s.keyboard '+' = some s ∧ s.keyboard '=' = some s) ∧
      (s.numCircles = 1 → s.keyboard '-' = some s)) := by
  refine ⟨?_, ?_, ?_, ?_⟩
  · intro evs
    exact LineDemo.run_width evs LineDemo.init
      ⟨by constructor <;> norm_num [LineDemo.init], by simp [LineDemo.init]⟩
  · intro evs
    exact CircleDemo.run_count evs CircleDemo.init (by constructor <;> norm_num [CircleDemo.init])
  · intro s
    constructor
    · intro h
      cases s
      simp only at h
      subst h
      simp [LineDemo.keyboard]
    · intro h
      cases s
      simp only at h
      subst h
      simp [LineDemo.keyboard]
  · intro s
    constructor
    · intro h
      cases s
      simp only at h
      subst h
      simp [CircleDemo.keyboard]
    · intro h
      cases s
      simp only at h
      subst h
      simp [CircleDemo.keyboard]

theorem counters_clamped_witness :
    ({ LineDemo.init with lineWidth := 100 } : LineDemo).lineWidth = 100 ∧
    (({ LineDemo.init with lineWidth := 100 } : LineDemo).keyboard '+' =
        { LineDemo.init with lineWidth := 100 } ∧
      ({ LineDemo.init with lineWidth := 100 } : LineDemo).keyboard '=' =
        { LineDemo.init with lineWidth := 100 }) ∧
    LineDemo.init.lineWidth = 1 ∧ LineDemo.init.keyboard '-' = LineDemo.init :=
  ⟨rfl, (counters_clamped.2.2.1 { LineDemo.init with lineWidth := 100 }).1 rfl,
   rfl, (counters_clamped.2.2.1 LineDemo.init).2 rfl⟩

/-- C13: in the line-drawing demo, from a state with no pending first point, a
left press at `(xa, ya)`, any motion events, then a left press at `(xb, yb)`
append exactly the segment `((xa, winH - ya), (xb, winH - yb))`, the current
`lineWidth` and the current brush flag to the three stored lists, leave every
earlier entry and every other global unchanged, and end with no pending point
(`p1set = false`, `p1 = p2 = (-1,-1)`). -/
theorem lineDemo_two_clicks (s : LineDemo) (hs : s.p1set = false) (xa ya xb yb : Int)
    (ms : List (Int × Int)) :
    (ms.foldl (fun t m => t.motion m.1 m.2)
        (s.mouse MouseButton.left ButtonState.down xa ya)).mouse
      MouseButton.left ButtonState.down xb yb =
    { s with
      drawnLines := s.drawnLines ++ [(⟨xa, s.winH - ya⟩, ⟨xb, s.winH - yb⟩)]
      drawnWidths := s.drawnWidths ++ [s.lineWidth]
      drawnRoundFlags := s.drawnRoundFlags ++ [if s.roundBrush then 1 else 0]
      p1set := false, p1 := ⟨-1, -1⟩, p2 := ⟨-1, -1⟩ } := by
  have h1 : s.mouse MouseButton.left ButtonState.down xa ya =
      { s with p1 := ⟨xa, s.winH - ya⟩, p1set := true, p2 := ⟨-1, -1⟩ } := by
    simp [LineDemo.mouse, hs]
  obtain ⟨q, hq⟩ := LineDemo.motions_pending ms
    (s.mouse MouseButton.left ButtonState.down xa ya) (by rw [h1])
  rw [hq, h1]
  simp [LineDemo.mouse]

theorem lineDemo_two_clicks_witness :
    LineDemo.init.p1set = false ∧
    ([((10 : Int), (20 : Int)), (30, 40)].foldl (fun t m => t.motion m.1 m.2)
        (LineDemo.init.mouse MouseButton.left ButtonState.down 1 2)).mouse
      MouseButton.left ButtonState.down 50 60 =
    { LineDemo.init with
      drawnLines := LineDemo.init.drawnLines ++
        [(⟨1, LineDemo.init.winH - 2⟩, ⟨50, LineDemo.init.winH - 60⟩)]
      drawnWidths := LineDemo.init.drawnWidths ++ [LineDemo.init.lineWidth]
      drawnRoundFlags := LineDemo.init.drawnRoundFlags ++
        [if LineDemo.init.roundBrush then 1 else 0]
      p1set := false, p1 := ⟨-1, -1⟩, p2 := ⟨-1, -1⟩ } :=
  ⟨rfl, lineDemo_two_clicks LineDemo.init rfl 1 2 50 60 [(10, 20), (30, 40)]⟩

/-- C14: in the circle demo, from every prior state, the reset command (key
`r` or `R`) leaves `numCircles = 20`, `startRadius = 30`, `gap = 10` and
`gradientMode = 0`. -/
theorem circleDemo_reset (s : CircleDemo) :
    (∃ s1, s.keyboard 'r' = some s1 ∧ s1.numCircles = 20 ∧ s1.startRadius = 30 ∧
      s1.gap = 10 ∧ s1.gradientMode = 0) ∧
    (∃ s1, s.keyboard 'R' = some s1 ∧ s1.numCircles = 20 ∧ s1.startRadius = 30 ∧
      s1.gap = 10 ∧ s1.gradientMode = 0) := by
  constructor
  · exact ⟨{ s with numCircles := 20, gradientMode := 0, startRadius := 30, gap := 10 },
      by simp [CircleDemo.keyboard], rfl, rfl, rfl, rfl⟩
  · exact ⟨{ s with numCircles := 20, gradientMode := 0, startRadius := 30, gap := 10 },
      by simp [CircleDemo.keyboard], rfl, rfl, rfl, rfl⟩

/-- C15: the clear command is idempotent. In the line-drawing demo
`keyboard('c')` (or `'C'`) applied twice gives the state it gives applied once,
with the three stored lists empty and no pending point; in the clipping demo
likewise, with the stored lines empty. -/
theorem clear_idempotent :
    (∀ (s : LineDemo) (k1 k2 : Char), (k1 = 'c' ∨ k1 = 'C') → (k2 = 'c' ∨ k2 = 'C') →
      (s.keyboard k1).keyboard k2 = s.keyboard k1 ∧
      (s.keyboard k1).drawnLines = [] ∧ (s.keyboard k1).drawnWidths = [] ∧
      (s.keyboard k1).drawnRoundFlags = [] ∧ (s.keyboard k1).p1set = false ∧
      (s.keyboard k1).p1 = ⟨-1, -1⟩ ∧ (s.keyboard k1).p2 = ⟨-1, -1⟩) ∧
    (∀ (s : ClipDemo) (k1 k2 : Char), (k1 = 'c' ∨ k1 = 'C') → (k2 = 'c' ∨ k2 = 'C') →
      ∃ s1, s.keyboard k1 = some s1 ∧ s1.keyboard k2 = some s1 ∧ s1.lines = []) := by
  constructor
  · intro s k1 k2 h1 h2
    rcases h1 with rfl | rfl <;> rcases h2 with rfl | rfl <;>
      simp [LineDemo.keyboard]
  · intro s k1 k2 h1 h2
    rcases h1 with rfl | rfl <;> rcases h2 with rfl | rfl <;>
      simp [ClipDemo.keyboard]

theorem clear_idempotent_witness :
    ((LineDemo.init.keyboard 'c').keyboard 'C' = LineDemo.init.keyboard 'c' ∧
      (LineDemo.init.keyboard 'c').drawnLines = [] ∧
      (LineDemo.init.keyboard 'c').drawnWidths = [] ∧
      (LineDemo.init.keyboard 'c').drawnRoundFlags = [] ∧
      (LineDemo.init.keyboard 'c').p1set = false ∧
      (LineDemo.init.keyboard 'c').p1 = ⟨-1, -1⟩ ∧
      (LineDemo.init.keyboard 'c').p2 = ⟨-1, -1⟩) ∧
    (∃ s1, ClipDemo.init.keyboard 'C' = some s1 ∧ s1.keyboard 'c' = some s1 ∧
      s1.lines = []) :=
  ⟨clear_idempotent.1 LineDemo.init 'c' 'C' (Or.inl rfl) (Or.inr rfl),
   clear_idempotent.2 ClipDemo.init 'C' 'c' (Or.inr rfl) (Or.inl rfl)⟩

/-- C16: for every integer point `(x,y)`, `bresenhamPixels(x,y,x,y)` terminates
in its first iteration and produces exactly the one point `(x,y)`. -/
theorem bresenhamPixels_single_point (x y : Int) (fuel : Nat) :
    bresenhamPixels (fuel + 1) x y x y = some [⟨x, y⟩] := by
  unfold bresenhamPixels
  simp only
  rw [bresenhamLoop_target]
  rfl

/-- C17 (amended): for every centre, `drawCircleBrush(cx,cy,0)` plots exactly the
centre pixel, and for every radius `r < 0` it plots no point at all. -/
theorem drawCircleBrush_degenerate (cx cy : Int) :
    drawCircleBrush cx cy 0 = [⟨cx, cy⟩] ∧
    ∀ r : Int, r < 0 → drawCircleBrush cx cy r = [] := by
  constructor
  · have h : intRange (-0) 0 = [0] := by decide
    have hs : ((Nat.sqrt ((0 : Int) * 0 - 0 * 0).toNat : Nat) : Int) = 0 := by decide
    unfold drawCircleBrush
    rw [h]
    simp only [List.flatMap_cons, List.flatMap_nil, List.append_nil, hs]
    rw [h]
    simp
  · intro r hr
    have h0 : (r - -r + 1).toNat = 0 := by omega
    have h : intRange (-r) r = [] := by
      unfold intRange
      rw [h0]
      rfl
    unfold drawCircleBrush
    rw [h]
    rfl

theorem drawCircleBrush_degenerate_witness :
    (-3 : Int) < 0 ∧ drawCircleBrush 4 5 (-3) = [] :=
  ⟨by decide, (drawCircleBrush_degenerate 4 5).2 (-3) (by decide)⟩

/-- C17 as stated fails: with radius `-1` the brush plots nothing, so the
plotted set is empty. -/
theorem drawCircleBrush_negative_empty : drawCircleBrush 0 0 (-1) = [] := by decide

/-- C18 (amended): in gradient mode 1, for every ring count `N ≥ 1` and ring
index `0 ≤ i < N`, with `t = i/N`, the colour passed on has red `= 1.2 t`
without clamping, green `= t` and blue `= 1 - t`; red is at most 1 exactly
when `6 i ≤ 5 N`. -/
theorem setGradientColor_mode1 (i N : Int) (hN : 1 ≤ N) (_hi0 : 0 ≤ i) (_hiN : i < N) :
    setGradientColor 1 i N =
      some ((i : ℚ) / (N : ℚ) * (6 / 5), (i : ℚ) / (N : ℚ), 1 - (i : ℚ) / (N : ℚ)) ∧
    ((i : ℚ) / (N : ℚ) * (6 / 5) ≤ 1 ↔ 6 * i ≤ 5 * N) := by
  constructor
  · simp [setGradientColor]
  · have hNq : (0 : ℚ) < (N : ℚ) := by exact_mod_cast (by omega : 0 < N)
    rw [div_mul_eq_mul_div, div_le_one hNq]
    constructor
    · intro h
      have h2 : (6 : ℚ) * (i : ℚ) ≤ 5 * (N : ℚ) := by linarith
      exact_mod_cast h2
    · intro h
      have h2 : (6 : ℚ) * (i : ℚ) ≤ 5 * (N : ℚ) := by exact_mod_cast h
      linarith

theorem setGradientColor_mode1_witness :
    (1 : Int) ≤ 7 ∧ (0 : Int) ≤ 6 ∧ (6 : Int) < 7 ∧
    (setGradientColor 1 6 7 =
      some (((6 : Int) : ℚ) / ((7 : Int) : ℚ) * (6 / 5), ((6 : Int) : ℚ) / ((7 : Int) : ℚ),
        1 - ((6 : Int) : ℚ) / ((7 : Int) : ℚ)) ∧
    (((6 : Int) : ℚ) / ((7 : Int) : ℚ) * (6 / 5) ≤ 1 ↔ 6 * (6 : Int) ≤ 5 * 7)) :=
  ⟨by decide, by decide, by decide, setGradientColor_mode1 6 7 (by decide) (by decide) (by decide)⟩

/-- C18 as stated fails: for `N = 7`, `i = 6` the red channel passed on is
`36/35`, which exceeds 1 and differs from `min(1, 1.2 t) = 1`. -/
theorem setGradientColor_mode1_exceeds :
    setGradientColor 1 6 7 = some (36 / 35, 6 / 7, 1 / 7) ∧
    (36 / 35 : ℚ) ≠ min 1 (6 / 5 * (6 / 7)) ∧ (1 : ℚ) < 36 / 35 := by
  refine ⟨?_, ?_, by norm_num⟩
  · norm_num [setGradientColor]
  · rw [min_eq_left (by norm_num)]
    norm_num

/-! ## Bresenham stepper: the major axis -/

theorem bresenham_x_left (dx dy a b err : Int) (hdx : 0 ≤ dx) (hdy : 0 ≤ dy) (ha : 0 ≤ a)
    (hab : 0 < a ∨ 0 < b) (herr : err = (dy - b + 1) * dx - (dx - a + 1) * dy)
    (h : 2 * err > -dy) : 0 < a := by
  by_contra hcon
  have ha0 : a = 0 := by omega
  have hb1 : 0 ≤ b - 1 := by omega
  have hp := mul_nonneg hb1 hdx
  subst ha0
  nlinarith

theorem bresenham_y_left (dx dy a b err : Int) (hdx : 0 ≤ dx) (hdy : 0 ≤ dy) (hb : 0 ≤ b)
    (hab : 0 < a ∨ 0 < b) (herr : err = (dy - b + 1) * dx - (dx - a + 1) * dy)
    (h : 2 * err < dx) : 0 < b := by
  by_contra hcon
  have hb0 : b = 0 := by omega
  have ha1 : 0 ≤ a - 1 := by omega
  have hp := mul_nonneg ha1 hdy
  subst hb0
  nlinarith

theorem range_succ_affine (x sx : Int) (m : Nat) :
    (List.range (m + 1 + 1)).map (fun (i : Nat) => x + sx * (i : Int)) =
      x :: (List.range (m + 1)).map (fun (i : Nat) => x + sx + sx * (i : Int)) := by
  rw [List.range_succ_eq_map, List.map_cons, List.map_map]
  congr 1
  · simp
  · apply List.map_congr_left
    intro i _
    simp only [Function.comp, Nat.succ_eq_add_one, Nat.cast_add, Nat.cast_one]
    ring

theorem nodup_range_affine (x sx : Int) (hsx : sx = 1 ∨ sx = -1) (n : Nat) :
    ((List.range n).map (fun (i : Nat) => x + sx * (i : Int))).Nodup := by
  refine List.Nodup.map ?_ (List.nodup_range n)
  intro a b hab
  simp only at hab
  rcases hsx with h | h <;> subst h <;> omega

/-- When `dy ≤ dx`, every iteration takes an `x`-step: with `n` steps left in
`x`, the `x`-coordinates of the produced points are `x, x+sx, ..., x+n*sx`. -/
theorem bresenhamLoop_major_x (x2 y2 dx dy sx sy : Int) (hsx : sx = 1 ∨ sx = -1)
    (hmaj : dy ≤ dx) :
    ∀ (fuel n : Nat) (x y err b : Int) (pts : List Pt),
      bresenhamLoop x2 y2 dx dy sx sy fuel x y err [] = some pts →
      (n : Int) ≤ dx → 0 ≤ b → b ≤ dy → x2 - x = sx * n → y2 - y = sy * b →
      err = (dy - b + 1) * dx - (dx - n + 1) * dy →
      dx - 2 * dy ≤ 2 * err → (dx = dy → err = 0) →
      pts.map Pt.x = (List.range (n + 1)).map (fun (i : Nat) => x + sx * (i : Int)) := by
  intro fuel
  induction fuel with
  | zero => intro n x y err b pts h; simp [bresenhamLoop] at h
  | succ f ih =>
    intro n x y err b pts h hn hb hbdy hx hy herr hlow hdiag
    have hdy : 0 ≤ dy := le_trans hb hbdy
    have hdx : 0 ≤ dx := le_trans hdy hmaj
    by_cases htgt : x = x2 ∧ y = y2
    · obtain ⟨hx2, hy2⟩ := htgt
      subst hx2; subst hy2
      rw [bresenhamLoop_target] at h
      simp only [List.nil_append, Option.some.injEq] at h
      subst h
      have hn0 : n = 0 := by
        rcases hsx with h1 | h1 <;> subst h1 <;> omega
      subst hn0
      rw [show List.range (0 + 1) = [0] from rfl]
      simp
    · have hab : 0 < (n : Int) ∨ 0 < b := by
        by_contra hcon
        push_neg at hcon
        have hn0 : (n : Int) = 0 := by omega
        have hb0 : b = 0 := by omega
        rw [hn0, mul_zero] at hx
        rw [hb0, mul_zero] at hy
        exact htgt ⟨by linarith, by linarith⟩
      have hcx : 2 * err > -dy := by
        rcases lt_or_eq_of_le hmaj with hlt | heq
        · linarith
        · have h0 := hdiag heq.symm
          rw [h0]
          clear herr
          omega
      have hnpos : 0 < (n : Int) :=
        bresenham_x_left dx dy n b err hdx hdy (by omega) hab herr hcx
      obtain ⟨m, rfl⟩ : ∃ m, n = m + 1 := ⟨n - 1, by omega⟩
      rw [bresenhamLoop_succ x2 y2 dx dy sx sy f x y err htgt] at h
      simp only [if_pos hcx] at h
      by_cases hcy : 2 * err < dx
      · simp only [if_pos hcy] at h
        have hbpos : 0 < b := bresenham_y_left dx dy (m + 1 : Nat) b err hdx hdy hb hab herr hcy
        cases hrest : bresenhamLoop x2 y2 dx dy sx sy f (x + sx) (y + sy) (err - dy + dx) [] with
        | none => rw [hrest] at h; cases h
        | some rest =>
          rw [hrest] at h
          simp only [Option.map_some', Option.some.injEq] at h
          subst h
          have hrec := ih m (x + sx) (y + sy) (err - dy + dx) (b - 1) rest hrest
            (by push_cast at hn ⊢; omega) (by omega) (by omega)
            (by push_cast at hx ⊢; rw [mul_add, mul_one] at hx; linarith)
            (by rw [mul_sub, mul_one]; linarith)
            (by rw [herr]; push_cast; ring)
            (by omega) (by intro h; have := hdiag h; omega)
          rw [List.map_cons, hrec, range_succ_affine]
      · simp only [if_neg hcy] at h
        cases hrest : bresenhamLoop x2 y2 dx dy sx sy f (x + sx) y (err - dy) [] with
        | none => rw [hrest] at h; cases h
        | some rest =>
          rw [hrest] at h
          simp only [Option.map_some', Option.some.injEq] at h
          subst h
          have hrec := ih m (x + sx) y (err - dy) b rest hrest
            (by push_cast at hn ⊢; omega) hb hbdy
            (by push_cast at hx ⊢; rw [mul_add, mul_one] at hx; linarith)
            hy
            (by rw [herr]; push_cast; ring)
            (by omega) (by intro h; have := hdiag h; omega)
          rw [List.map_cons, hrec, range_succ_affine]

/-- When `dx ≤ dy`, every iteration takes a `y`-step: with `n` steps left in
`y`, the `y`-coordinates of the produced points are `y, y+sy, ..., y+n*sy`. -/
theorem bresenhamLoop_major_y (x2 y2 dx dy sx sy : Int) (hsy : sy = 1 ∨ sy = -1)
    (hmaj : dx ≤ dy) :
    ∀ (fuel n : Nat) (x y err a : Int) (pts : List Pt),
      bresenhamLoop x2 y2 dx dy sx sy fuel x y err [] = some pts →
      0 ≤ a → a ≤ dx → (n : Int) ≤ dy → x2 - x = sx * a → y2 - y = sy * n →
      err = (dy - n + 1) * dx - (dx - a + 1) * dy →
      2 * err ≤ 2 * dx - dy → (dx = dy → err = 0) →
      pts.map Pt.y = (List.range (n + 1)).map (fun (i : Nat) => y + sy * (i : Int)) := by
  intro fuel
  induction fuel with
  | zero => intro n x y err a pts h; simp [bresenhamLoop] at h
  | succ f ih =>
    intro n x y err a pts h ha hadx hn hx hy herr hhigh hdiag
    have hdx : 0 ≤ dx := le_trans ha hadx
    have hdy : 0 ≤ dy := le_trans hdx hmaj
    by_cases htgt : x = x2 ∧ y = y2
    · obtain ⟨hx2, hy2⟩ := htgt
      subst hx2; subst hy2
      rw [bresenhamLoop_target] at h
      simp only [List.nil_append, Option.some.injEq] at h
      subst h
      have hn0 : n = 0 := by
        rcases hsy with h1 | h1 <;> subst h1 <;> omega
      subst hn0
      rw [show List.range (0 + 1) = [0] from rfl]
      simp
    · have hab : 0 < a ∨ 0 < (n : Int) := by
        by_contra hcon
        push_neg at hcon
        have hn0 : (n : Int) = 0 := by omega
        have ha0 : a = 0 := by omega
        rw [ha0, mul_zero] at hx
        rw [hn0, mul_zero] at hy
        exact htgt ⟨by linarith, by linarith⟩
      have hcy : 2 * err < dx := by
        rcases lt_or_eq_of_le hmaj with hlt | heq
        · linarith
        · have h0 := hdiag heq
          rw [h0]
          clear herr
          omega
      have hnpos : 0 < (n : Int) :=
        bresenham_y_left dx dy a n err hdx hdy (by omega) hab herr hcy
      obtain ⟨m, rfl⟩ : ∃ m, n = m + 1 := ⟨n - 1, by omega⟩
      rw [bresenhamLoop_succ x2 y2 dx dy sx sy f x y err htgt] at h
      simp only [if_pos hcy] at h
      by_cases hcx : 2 * err > -dy
      · simp only [if_pos hcx] at h
        have hapos : 0 < a := bresenham_x_left dx dy a (m + 1 : Nat) err hdx hdy ha hab herr hcx
        cases hrest : bresenhamLoop x2 y2 dx dy sx sy f (x + sx) (y + sy) (err - dy + dx) [] with
        | none => rw [hrest] at h; cases h
        | some rest =>
          rw [hrest] at h
          simp only [Option.map_some', Option.some.injEq] at h
          subst h
          have hrec := ih m (x + sx) (y + sy) (err - dy + dx) (a - 1) rest hrest
            (by omega) (by omega) (by push_cast at hn ⊢; omega)
            (by rw [mul_sub, mul_one]; linarith)
            (by push_cast at hy ⊢; rw [mul_add, mul_one] at hy; linarith)
            (by rw [herr]; push_cast; ring)
            (by omega) (by intro h; have := hdiag h; omega)
          rw [List.map_cons, hrec, range_succ_affine]
      · simp only [if_neg hcx] at h
        cases hrest : bresenhamLoop x2 y2 dx dy sx sy f x (y + sy) (err + dx) [] with
        | none => rw [hrest] at h; cases h
        | some rest =>
          rw [hrest] at h
          simp only [Option.map_some', Option.some.injEq] at h
          subst h
          have hrec := ih m x (y + sy) (err + dx) a rest hrest
            ha hadx (by push_cast at hn ⊢; omega)
            hx
            (by push_cast at hy ⊢; rw [mul_add, mul_one] at hy; linarith)
            (by rw [herr]; push_cast; ring)
            (by omega) (by intro h; have := hdiag h; omega)
          rw [List.map_cons, hrec, range_succ_affine]

/-- C19: for all integer endpoints `bresenhamPixels` produces exactly
`max(|x2-x1|, |y2-y1|) + 1` points, and no point occurs twice in the sequence. -/
theorem bresenhamPixels_length_nodup (x1 y1 x2 y2 : Int) :
    ∃ (fuel : Nat) (pts : List Pt),
      (∀ k, bresenhamPixels (fuel + k) x1 y1 x2 y2 = some pts) ∧
      (pts.length : Int) = max |x2 - x1| |y2 - y1| + 1 ∧ pts.Nodup := by
  obtain ⟨pts, hrun, _⟩ := bresenhamPixels_run x1 y1 x2 y2
  refine ⟨_, _, hrun, ?_⟩
  have h0 := hrun 0
  unfold bresenhamPixels at h0
  simp only at h0
  have hax : 0 ≤ |x2 - x1| := abs_nonneg _
  have hay : 0 ≤ |y2 - y1| := abs_nonneg _
  have hsx1 : (if x1 < x2 then (1 : Int) else -1) = 1 ∨ (if x1 < x2 then (1 : Int) else -1) = -1 := by
    split <;> simp
  have hsy1 : (if y1 < y2 then (1 : Int) else -1) = 1 ∨ (if y1 < y2 then (1 : Int) else -1) = -1 := by
    split <;> simp
  have hsx : x2 - x1 = (if x1 < x2 then (1 : Int) else -1) * |x2 - x1| := by
    split
    · rw [abs_of_pos (by omega)]; ring
    · rw [abs_of_nonpos (by omega)]; ring
  have hsy : y2 - y1 = (if y1 < y2 then (1 : Int) else -1) * |y2 - y1| := by
    split
    · rw [abs_of_pos (by omega)]; ring
    · rw [abs_of_nonpos (by omega)]; ring
  rcases le_total |y2 - y1| |x2 - x1| with hmaj | hmaj
  · have hmap := bresenhamLoop_major_x x2 y2 |x2 - x1| |y2 - y1| _ _ hsx1 hmaj _
      (|x2 - x1|).toNat x1 y1 _ |y2 - y1| _ h0
      (by rw [Int.toNat_of_nonneg hax]) hay le_rfl
      (by rw [Int.toNat_of_nonneg hax]; exact hsx) hsy
      (by rw [Int.toNat_of_nonneg hax]; ring) (by linarith) (by intro h; rw [h]; ring)
    constructor
    · have hlen := congrArg List.length hmap
      rw [List.length_map, List.length_map, List.length_range] at hlen
      rw [hlen, max_eq_left hmaj]
      push_cast
      rw [Int.toNat_of_nonneg hax]
    · refine List.Nodup.of_map Pt.x ?_
      rw [hmap]
      exact nodup_range_affine _ _ hsx1 _
  · have hmap := bresenhamLoop_major_y x2 y2 |x2 - x1| |y2 - y1| _ _ hsy1 hmaj _
      (|y2 - y1|).toNat x1 y1 _ |x2 - x1| _ h0
      hax le_rfl (by rw [Int.toNat_of_nonneg hay])
      hsx (by rw [Int.toNat_of_nonneg hay]; exact hsy)
      (by rw [Int.toNat_of_nonneg hay]; ring) (by linarith) (by intro h; rw [h]; ring)
    constructor
    · have hlen := congrArg List.length hmap
      rw [List.length_map, List.length_map, List.length_range] at hlen
      rw [hlen, max_eq_right hmaj]
      push_cast
      rw [Int.toNat_of_nonneg hay]
    · refine List.Nodup.of_map Pt.y ?_
      rw [hmap]
      exact nodup_range_affine _ _ hsy1 _

/-- An offset of the closed disk of radius `r ≥ 0` lies in a row of the brush
and within the half-width of that row. -/
theorem disk_in_row (r dy dx : Int) (hr : 0 ≤ r) (h : dx * dx + dy * dy ≤ r * r) :
    (-r ≤ dy ∧ dy ≤ r) ∧
    (-(Nat.sqrt (r * r - dy * dy).toNat : Int) ≤ dx ∧
      dx ≤ (Nat.sqrt (r * r - dy * dy).toNat : Int)) := by
  have hdx : 0 ≤ dx * dx := mul_self_nonneg dx
  have hdy : -r ≤ dy ∧ dy ≤ r := by
    constructor
    · by_contra hc
      push_neg at hc
      nlinarith
    · by_contra hc
      push_neg at hc
      nlinarith
  refine ⟨hdy, ?_⟩
  have hnn : 0 ≤ r * r - dy * dy := by linarith
  have hle : dx.natAbs * dx.natAbs ≤ (r * r - dy * dy).toNat := by
    have h1 : ((dx.natAbs * dx.natAbs : Nat) : Int) ≤ ((r * r - dy * dy).toNat : Int) := by
      rw [Int.toNat_of_nonneg hnn]
      push_cast
      rw [abs_mul_abs_self]
      linarith
    exact_mod_cast h1
  have hs : dx.natAbs ≤ Nat.sqrt (r * r - dy * dy).toNat := Nat.le_sqrt.mpr hle
  have habs : |dx| ≤ (Nat.sqrt (r * r - dy * dy).toNat : Int) := by
    rw [← Int.natCast_natAbs]
    exact_mod_cast hs
  exact abs_le.mp habs

theorem nodup_drawCircleBrush (cx cy r : Int) : (drawCircleBrush cx cy r).Nodup := by
  unfold drawCircleBrush
  rw [List.nodup_flatMap]
  constructor
  · intro dy _
    refine List.Nodup.map ?_ (nodup_intRange _ _)
    intro a b hab
    simp only [Pt.mk.injEq] at hab
    omega
  · refine List.Pairwise.imp ?_ (nodup_intRange _ _)
    intro a b hab
    simp only [Function.onFun, List.disjoint_left, List.mem_map]
    rintro p ⟨dx, _, rfl⟩ ⟨dx1, _, h⟩
    simp only [Pt.mk.injEq] at h
    omega

/-- C20: with the exact integer square root, for every centre and every radius
`r ≥ 0` the points plotted by `drawCircleBrush` are exactly the lattice points
`(cx+dx, cy+dy)` with `dx² + dy² ≤ r²`, and no point is plotted twice. -/
theorem drawCircleBrush_exact_disk (cx cy r : Int) (hr : 0 ≤ r) :
    (∀ p : Pt, p ∈ drawCircleBrush cx cy r ↔
      (p.x - cx) * (p.x - cx) + (p.y - cy) * (p.y - cy) ≤ r * r) ∧
    (∀ p ∈ drawCircleBrush cx cy r, (drawCircleBrush cx cy r).count p = 1) ∧
    (drawCircleBrush cx cy r).Nodup := by
  have hnd := nodup_drawCircleBrush cx cy r
  refine ⟨?_, fun p hp => List.count_eq_one_of_mem hnd hp, hnd⟩
  intro p
  constructor
  · intro hp
    obtain ⟨dy, dx, hdy, hdx, rfl⟩ := (mem_drawCircleBrush cx cy r p).mp hp
    simp only [add_sub_cancel_left]
    exact row_in_disk r dy dx hdy hdx
  · intro h
    obtain ⟨hdy, hdx⟩ := disk_in_row r (p.y - cy) (p.x - cx) hr h
    refine (mem_drawCircleBrush cx cy r p).mpr ⟨p.y - cy, p.x - cx, hdy, hdx, ?_⟩
    cases p
    simp

theorem drawCircleBrush_exact_disk_witness :
    (0 : Int) ≤ 2 ∧
    ((∀ p : Pt, p ∈ drawCircleBrush 0 0 2 ↔
      (p.x - 0) * (p.x - 0) + (p.y - 0) * (p.y - 0) ≤ (2 : Int) * 2) ∧
    (∀ p ∈ drawCircleBrush 0 0 2, (drawCircleBrush 0 0 2).count p = 1) ∧
    (drawCircleBrush 0 0 2).Nodup) :=
  ⟨by decide, drawCircleBrush_exact_disk 0 0 2 (by decide)⟩

end Graphics
